import Mathlib

/-
Verification development for the chunked, rate-governed document
transformation pipeline and its client text utilities.

Sources embedded below:
- src/client/src/utils/textCleaner.ts (cleanText, steps 1 to 16)
- src/server/services/mathDelimiterFixer.ts (sanitizeMathAndCurrency)
- the orchestration core (DocumentChunker, ProviderBudget, RetryPolicy,
  ChunkOrchestrator, ResultAggregator), which is not present under src/ and
  is therefore modelled from the specification, as marked on each definition.

Strings are modelled as lists of characters (List Char); each JavaScript
regex replacement of cleanText is embedded as a structurally recursive
scan so that every definition evaluates inside the kernel.
-/

/-- Character class of the JavaScript regex \s (WhiteSpace and line
terminators): tab, LF, VT, FF, CR, space, NBSP, OGHAM space mark,
U+2000 to U+200A, LS, PS, NNBSP, MMSP, ideographic space and BOM.
The same set is removed by String.prototype.trim. -/
def isWs (c : Char) : Bool :=
  decide (c.toNat = 9 ∨ c.toNat = 10 ∨ c.toNat = 11 ∨ c.toNat = 12 ∨ c.toNat = 13 ∨
    c.toNat = 32 ∨ c.toNat = 0xA0 ∨ c.toNat = 0x1680 ∨
    (0x2000 ≤ c.toNat ∧ c.toNat ≤ 0x200A) ∨ c.toNat = 0x2028 ∨ c.toNat = 0x2029 ∨
    c.toNat = 0x202F ∨ c.toNat = 0x205F ∨ c.toNat = 0x3000 ∨ c.toNat = 0xFEFF)

/-- Whitespace other than LF: the class [^\S\n] used by cleanText step 8. -/
def isInlineWs (c : Char) : Bool := isWs c && !(c = '\n')

/-- Sentence-terminal punctuation [.!?] of cleanText step 14. -/
def isSentencePunct (c : Char) : Bool := c = '.' || c = '!' || c = '?'

/-- Character class [A-Z] of cleanText step 14. -/
def isUpperAZ (c : Char) : Bool := decide (65 ≤ c.toNat ∧ c.toNat ≤ 90)

/-- Step 1 of cleanText: remove zero-width characters, BOM, and the
line and paragraph separators (U+200B U+200C U+200D U+FEFF U+2028 U+2029). -/
def removeInvisible (l : List Char) : List Char :=
  l.filter (fun c => !(decide (c.toNat = 0x200B ∨ c.toNat = 0x200C ∨ c.toNat = 0x200D ∨
    c.toNat = 0xFEFF ∨ c.toNat = 0x2028 ∨ c.toNat = 0x2029)))

/-- Step 2 of cleanText: smart double quotes and double prime to straight
double quote, smart single quotes and prime to straight single quote. -/
def smartQuoteChar (c : Char) : Char :=
  if c.toNat = 0x201C ∨ c.toNat = 0x201D ∨ c.toNat = 0x2033 then '"'
  else if c.toNat = 0x2018 ∨ c.toNat = 0x2019 ∨ c.toNat = 0x2032 then '\'' else c

/-- Step 3 of cleanText: non-breaking space to regular space. -/
def nbspChar (c : Char) : Char := if c.toNat = 0xA0 then ' ' else c

/-- Step 4 of cleanText: unusual space characters (U+2000 to U+200A,
U+202F, U+205F) to regular space. -/
def specialSpaceChar (c : Char) : Char :=
  if (0x2000 ≤ c.toNat ∧ c.toNat ≤ 0x200A) ∨ c.toNat = 0x202F ∨ c.toNat = 0x205F then ' ' else c

/-- Step 5 of cleanText: en dash and em dash to hyphen-minus. -/
def dashChar (c : Char) : Char :=
  if c.toNat = 0x2013 ∨ c.toNat = 0x2014 then '-' else c

/-- Step 6 of cleanText: the ellipsis character becomes three dots. -/
def ellipsisChar (c : Char) : List Char :=
  if c.toNat = 0x2026 then ['.', '.', '.'] else [c]

/-- Step 7 of cleanText: remove soft hyphen and word joiner. -/
def removeJoiners (l : List Char) : List Char :=
  l.filter (fun c => !(decide (c.toNat = 0xAD ∨ c.toNat = 0x2060)))

/-- Lookahead: the next character exists and satisfies the predicate. -/
def headIs (p : Char → Bool) (l : List Char) : Bool :=
  match l with
  | [] => false
  | d :: _ => p d

/-- Lookahead: the next two characters exist and satisfy the predicate. -/
def head2Are (p : Char → Bool) (l : List Char) : Bool :=
  match l with
  | d :: e :: _ => p d && p e
  | _ => false

/-- Scanner for step 8 of cleanText, the replacement of every run of two
or more non-newline whitespace characters by a single space.  When the
flag is set the scanner is inside a run whose single output space has
already been emitted: a whitespace character starting a run of length at
least two emits the single space, a solitary whitespace character is
kept unchanged. -/
def collapseWsGo (skip : Bool) : List Char → List Char
  | [] => []
  | c :: rest =>
    if isInlineWs c then
      if skip then collapseWsGo true rest
      else if headIs isInlineWs rest then ' ' :: collapseWsGo true rest
      else c :: collapseWsGo false rest
    else c :: collapseWsGo false rest

/-- Step 8 of cleanText. -/
def collapseWs (l : List Char) : List Char := collapseWsGo false l

/-- Step 9 of cleanText calls the JavaScript host function
String.prototype.normalize with the NFKC form.  Unicode NFKC
normalization is the identity on strings of ASCII characters, and every
concrete string evaluated by a theorem below is ASCII, where this model
is exact; theorems that quantify over arbitrary strings take the
normalization function as an explicit parameter (cleanTextWith) and
assume of it only properties that the real NFKC has. -/
def normalizeNFKC (l : List Char) : List Char := l

/-- First replacement of step 10 of cleanText: every CRLF pair becomes LF. -/
def dropCRLF : List Char → List Char
  | [] => []
  | [c] => [c]
  | c :: d :: rest =>
    if c = '\r' && d = '\n' then '\n' :: dropCRLF rest
    else c :: dropCRLF (d :: rest)

/-- Second replacement of step 10 of cleanText: every remaining CR becomes LF. -/
def crToLF (l : List Char) : List Char := l.map (fun c => if c = '\r' then '\n' else c)

/-- Scanner for step 11 of cleanText applied to the reversed string: a
run of spaces at the start of the reversed string or just after a
newline is a trailing run of its line and is dropped. -/
def stripTrailGo (atEnd : Bool) : List Char → List Char
  | [] => []
  | c :: rest => if c = ' ' && atEnd then stripTrailGo true rest
                 else c :: stripTrailGo (c = '\n') rest

/-- Step 11 of cleanText: remove trailing spaces at the end of every line
(the multiline regex replaces one or more trailing space characters). -/
def stripTrailingSpaces (l : List Char) : List Char := (stripTrailGo true l.reverse).reverse

/-- Scanner for steps 12 and 15 of cleanText: a run of three or more
newlines is replaced by exactly two.  When the flag is set the scanner is
inside a run whose two output newlines have already been emitted. -/
def collapseNlGo (skip : Bool) : List Char → List Char
  | [] => []
  | c :: rest =>
    if c = '\n' then
      if skip then collapseNlGo true rest
      else if head2Are (fun d => d = '\n') rest then '\n' :: '\n' :: collapseNlGo true rest
      else c :: collapseNlGo false rest
    else c :: collapseNlGo false rest

/-- Steps 12 and 15 of cleanText. -/
def collapseNewlines (l : List Char) : List Char := collapseNlGo false l

/-- Scanner for step 13 of cleanText, the multiline replacement of one
whitespace character at the start of a line when it is not followed by
another whitespace character.  A position is a line start when it is the
start of the string or the previous character of the original string is a
newline; note that the matched whitespace character may itself be the
newline that terminates an empty line. -/
def stripLeadGo (atStart : Bool) : List Char → List Char
  | [] => []
  | c :: rest =>
    if atStart && isWs c && !(headIs isWs rest) then
      stripLeadGo (c = '\n') rest
    else c :: stripLeadGo (c = '\n') rest

/-- Step 13 of cleanText. -/
def stripLineLeadIndent (l : List Char) : List Char := stripLeadGo true l

/-- Split on newline, mirroring the JavaScript split of step 14; the
result always has one piece more than the number of newlines. -/
def splitLines : List Char → List (List Char)
  | [] => [[]]
  | c :: rest =>
    if c = '\n' then [] :: splitLines rest
    else
      match splitLines rest with
      | [] => [[c]]
      | l :: ls => (c :: l) :: ls

/-- Join with newline, mirroring the JavaScript join of step 14. -/
def joinLines : List (List Char) → List Char
  | [] => []
  | [l] => l
  | l :: ls => l ++ '\n' :: joinLines ls

/-- Flush of a pending partial match of the sentence-boundary regex of
step 14: the punctuation character followed by the whitespace collected
so far (held reversed). -/
def ssFlush : Option (Char × List Char) → List Char
  | none => []
  | some (p, ws) => p :: ws.reverse

/-- Scanner for the replacement of step 14 on one line: every match of a
sentence-terminal punctuation character, one or more whitespace
characters, and a capital letter is replaced by the punctuation
character, two newlines and the capital letter.  The pending state holds
a possible match in progress: the punctuation character and the
whitespace run read so far (reversed). -/
def ssGo : Option (Char × List Char) → List Char → List Char
  | pending, [] => ssFlush pending
  | none, c :: rest =>
    if isSentencePunct c then ssGo (some (c, [])) rest else c :: ssGo none rest
  | some (p, ws), c :: rest =>
    if isWs c then ssGo (some (p, c :: ws)) rest
    else if isUpperAZ c && !(ws = []) then
      p :: '\n' :: '\n' :: c :: ssGo none rest
    else
      (p :: ws.reverse) ++
        (if isSentencePunct c then ssGo (some (c, [])) rest else c :: ssGo none rest)

/-- Sentence-boundary replacement of step 14 on a single line. -/
def sentenceSplitLine (l : List Char) : List Char := ssGo none l

/-- Step 14 of cleanText: lines longer than 500 characters get paragraph
breaks at sentence boundaries.  The source measures line length in
UTF-16 code units; the model counts characters, which coincides on the
ASCII strings all concrete theorems below evaluate. -/
def splitLongLines (l : List Char) : List Char :=
  joinLines ((splitLines l).map (fun line =>
    if line.length > 500 then sentenceSplitLine line else line))

/-- Step 16 of cleanText: String.prototype.trim, which removes the same
whitespace class as the regex \s from both ends. -/
def jsTrim (l : List Char) : List Char :=
  ((l.dropWhile isWs).reverse.dropWhile isWs).reverse

/-- Composition of steps 1 to 16 of cleanText from
src/client/src/utils/textCleaner.ts, parameterized by the host
normalization function of step 9. -/
def cleanListWith (nfkc : List Char → List Char) (l : List Char) : List Char :=
  jsTrim (collapseNewlines (splitLongLines (stripLineLeadIndent (collapseNewlines
    (stripTrailingSpaces (crToLF (dropCRLF (nfkc (collapseWs (removeJoiners
      ((((removeInvisible l).map smartQuoteChar |>.map nbspChar |>.map specialSpaceChar
        |>.map dashChar).flatMap ellipsisChar))))))))))))

/-- Function cleanText of src/client/src/utils/textCleaner.ts on string
inputs, parameterized by the host normalization function of step 9.  The
leading guard returns the empty string for a falsy input, which for a
string argument means the empty string. -/
def cleanTextWith (nfkc : List Char → List Char) (input : String) : String :=
  if input = "" then "" else ⟨cleanListWith nfkc input.data⟩

/-- Function cleanText with the normalization step instantiated by the
ASCII-exact model of NFKC. -/
def cleanText (input : String) : String := cleanTextWith normalizeNFKC input

/-- Argument passed to cleanText through its public (untyped) JavaScript
interface: either a string or a value of any other runtime type. -/
inductive JSValue where
  | str (s : String)
  | nonString
deriving DecidableEq

/-- Function cleanText on an arbitrary JavaScript value: the guard at the
top of the source returns the empty string when the input is falsy or not
a string. -/
def cleanTextJS (nfkc : List Char → List Char) : JSValue → String
  | .nonString => ""
  | .str s => cleanTextWith nfkc s

/-- Function sanitizeMathAndCurrency defined at the top of
src/server/services/mathDelimiterFixer.ts (lines 4 to 12).  Its body
logs that conversion is disabled and then returns the argument text
unchanged, so the embedding is the identity on the text. -/
def sanitizeMathAndCurrency (text : String) : String := text

/-- Claim C10: the sanitizeMathAndCurrency function defined at the top of
mathDelimiterFixer.ts is the identity function: for every input string it
returns the input unchanged, so the exported server-side math-delimiter
and currency sanitization performs no conversion at all. -/
theorem sanitizeMathAndCurrency_id (s : String) : sanitizeMathAndCurrency s = s := rfl

/-- Word of a document, the unit in which the chunker measures size.
Modelled from the spec: the DocumentChunker source is not under src/, so
its data is modelled from the specification, which phrases chunking in
terms of word sequences, blank-line-delimited paragraphs and
sentence-boundary fallback; the model takes documents already tokenized
into paragraphs, sentences and words. -/
abbrev Word := String

/-- Sentence: a list of words.  Modelled from the spec, see Word. -/
abbrev Sentence := List Word

/-- Paragraph: a list of sentences.  Modelled from the spec, see Word. -/
abbrev Paragraph := List Sentence

/-- Document to be chunked.  Modelled from the spec, see Word. -/
abbrev Document := List Paragraph

/-- Words of one paragraph in order.  Modelled from the spec. -/
def paraWords (p : Paragraph) : List Word := p.flatten

/-- Word sequence of a whole document in order.  Modelled from the spec:
the word count of the input text after trimming. -/
def docWords (d : Document) : List Word := (d.map paraWords).flatten

/-- Chunking policy.  Modelled from the spec: maxChunkWords and
minChunkWords of the split contract plus the large-document threshold of
the fallback rule, treated as a policy value. -/
structure ChunkPolicy where
  maxChunkWords : Nat
  minChunkWords : Nat
  largeDocThreshold : Nat
deriving DecidableEq

/-- Greedy packing loop.  Modelled from the spec: greedily pack
consecutive units (paragraphs, or sentences in fallback mode) into
chunks of at most maxChunkWords words; a unit that does not fit closes
the open chunk and starts a new one, so a unit larger than maxChunkWords
alone becomes its own oversized chunk and is never truncated.  The
accumulator holds the open chunk and its word count. -/
def packGo (maxW : Nat) (acc : List (List Word)) (accW : Nat) : List (List Word) → List (List (List Word))
  | [] => [acc]
  | u :: rest =>
    if accW + u.length ≤ maxW then packGo maxW (acc ++ [u]) (accW + u.length) rest
    else acc :: packGo maxW [u] u.length rest

/-- Greedy packing of a unit list into chunks.  Modelled from the spec. -/
def pack (maxW : Nat) : List (List Word) → List (List (List Word))
  | [] => []
  | u :: rest => packGo maxW [u] u.length rest

/-- Chunk: sequence index (0-based, dense) plus the units whose words
form its source text.  Modelled from the spec. -/
structure Chunk where
  seqIndex : Nat
  units : List (List Word)
deriving DecidableEq

/-- Source word sequence of a chunk. -/
def chunkWords (c : Chunk) : List Word := c.units.flatten

/-- Source word count of a chunk. -/
def chunkWc (c : Chunk) : Nat := (chunkWords c).length

/-- Chunking failure.  Modelled from the spec: EmptyDocument is raised
when the input text has zero words after trimming. -/
inductive ChunkError where
  | emptyDocument
deriving DecidableEq

/-- Attach dense 0-based sequence indices to packed chunks. -/
def mkChunks (packed : List (List (List Word))) : List Chunk :=
  packed.enum.map (fun p => ⟨p.1, p.2⟩)

/-- Contract split of DocumentChunker.  Modelled from the spec: fail with
EmptyDocument on a document with zero words; otherwise pack paragraphs
greedily; if fewer than two paragraphs were detected, or the paragraph
packing produced a single chunk for a document larger than the
large-document threshold, fall back to sentence units and repack with
the same greedy loop. -/
def DocumentChunker.split (pol : ChunkPolicy) (doc : Document) : Except ChunkError (List Chunk) :=
  if (docWords doc).length = 0 then .error .emptyDocument
  else if (doc.map paraWords).length < 2 ∨
      ((pack pol.maxChunkWords (doc.map paraWords)).length = 1 ∧
        pol.largeDocThreshold < (docWords doc).length) then
    .ok (mkChunks (pack pol.maxChunkWords doc.flatten))
  else .ok (mkChunks (pack pol.maxChunkWords (doc.map paraWords)))

/-- Outcome of one provider invocation.  Modelled from the spec: the
provider contract fails with exactly two classified error kinds,
Transient (retryable) and Fatal (non-retryable). -/
inductive Outcome where
  | success (text : String)
  | transient
  | fatal
deriving DecidableEq

/-- Retry loop of the orchestrator for one chunk.  Modelled from the
spec: attempts are numbered from 1; success and fatal failure are
terminal; a transient failure retries while the attempt count is below
maxRetries and otherwise marks the chunk FailedFatal.  The provider
oracle maps chunk index and attempt number to the outcome of that
attempt; fuel bounds the recursion and never runs out below maxRetries.
Returns the number of attempts consumed and the output on success. -/
def runAttempts (provider : Nat → Nat → Outcome) (ci maxRetries : Nat) : Nat → Nat → Nat × Option String
  | fuel, attempt =>
    match provider ci attempt with
    | .success t => (attempt, some t)
    | .fatal => (attempt, none)
    | .transient =>
      match fuel with
      | 0 => (attempt, none)
      | fuel2 + 1 =>
        if attempt < maxRetries then runAttempts provider ci maxRetries fuel2 (attempt + 1)
        else (attempt, none)

/-- Terminal record for one chunk.  Modelled from the spec: output text
on success (none after a fatal terminal outcome) and total attempts
consumed. -/
structure TransformationResult where
  seqIndex : Nat
  output : Option String
  attempts : Nat
deriving DecidableEq

/-- Processing of one chunk by the orchestrator.  Modelled from the spec. -/
def runChunk (provider : Nat → Nat → Outcome) (maxRetries : Nat) (c : Chunk) : TransformationResult :=
  let r := runAttempts provider c.seqIndex maxRetries maxRetries 1
  ⟨c.seqIndex, r.2, r.1⟩

/-- Job states of the orchestrator state machine.  Modelled from the spec. -/
inductive JobState where
  | queued
  | chunking
  | processing
  | aggregating
  | completed
  | partiallyFailed
  | failed
  | cancelled
deriving DecidableEq

/-- Terminal snapshot of a job: final state and the ordered
TransformationResult list.  Modelled from the spec. -/
structure JobRun where
  state : JobState
  results : List TransformationResult
deriving DecidableEq

/-- Success test on a result. -/
def resultOk (r : TransformationResult) : Bool := r.output.isSome

/-- Whole-job orchestration.  Modelled from the spec: chunking failure
sends the job to Failed with no partial work; otherwise chunks are
processed strictly in sequence index order, one result recorded per
chunk, and the terminal state is Completed when every chunk succeeded,
Failed when every chunk failed, and PartiallyFailed otherwise. -/
def runJob (provider : Nat → Nat → Outcome) (pol : ChunkPolicy) (maxRetries : Nat)
    (doc : Document) : JobRun :=
  match DocumentChunker.split pol doc with
  | .error _ => ⟨.failed, []⟩
  | .ok chunks =>
    let results := chunks.map (runChunk provider maxRetries)
    ⟨if results.all resultOk then .completed
      else if results.all (fun r => !resultOk r) then .failed
      else .partiallyFailed, results⟩

/-- Total number of provider invocations consumed by a job. -/
def providerCalls (j : JobRun) : Nat := (j.results.map (fun r => r.attempts)).sum

/-- Placeholder inserted by the ResultAggregator for a failed chunk.
Modelled from the spec: failed chunks are replaced by a clearly marked
placeholder, never silently dropped. -/
def chunkPlaceholder : String := "[CHUNK FAILED]"

/-- Aggregation of ordered results into the final text.  Modelled from
the spec: outputs joined in sequence order with the separator convention
of the chunker, failed chunks replaced by the placeholder. -/
def aggregateText (results : List TransformationResult) : String :=
  String.intercalate "\n\n" (results.map (fun r => r.output.getD chunkPlaceholder))

/-- Number of placeholder positions in the aggregate. -/
def placeholderCount (results : List TransformationResult) : Nat :=
  (results.filter (fun r => r.output.isNone)).length

/-- Number of successful results. -/
def successCount (results : List TransformationResult) : Nat :=
  (results.filter (fun r => r.output.isSome)).length

/-- Exponential backoff of RetryPolicy before jitter.  Modelled from the
spec: base times 2 to the power of attempt minus 1, capped at a maximum. -/
def RetryPolicy.backoffRaw (base cap n : Nat) : Nat := min (base * 2 ^ (n - 1)) cap

/-- Backoff delay of RetryPolicy with an additive jitter term.  Modelled
from the spec. -/
def RetryPolicy.backoffDelay (base cap n jitter : Nat) : Nat :=
  RetryPolicy.backoffRaw base cap n + jitter

/-- Budget of one provider.  Modelled from the spec: a rolling window of
windowMs milliseconds admits at most quota requests, and consecutive
requests to the provider are separated by at least minSpacingMs. -/
structure BudgetConfig where
  quota : Nat
  windowMs : Nat
  minSpacingMs : Nat
deriving DecidableEq

/-- Admission test of tryAcquire.  Modelled from the spec: a request at
time now is granted when the grants inside the rolling window ending at
now are fewer than the quota and the most recent grant (the grant list
is held most recent first) is at least minSpacingMs old. -/
def ProviderBudget.canGrant (cfg : BudgetConfig) (grants : List Nat) (now : Nat) : Bool :=
  decide ((grants.filter (fun g => decide (now < g + cfg.windowMs))).length < cfg.quota) &&
  (match grants with
   | [] => true
   | lastg :: _ => decide (lastg + cfg.minSpacingMs ≤ now))

/-- Contract tryAcquire of ProviderBudget.  Modelled from the spec:
either reserve capacity now (recording the grant) or leave the state
unchanged, reporting that the caller must wait. -/
def ProviderBudget.tryAcquire (cfg : BudgetConfig) (grants : List Nat) (now : Nat) :
    Bool × List Nat :=
  if ProviderBudget.canGrant cfg grants now then (true, now :: grants) else (false, grants)

/-- Grant list (most recent first) after a sequence of acquisition
attempts at the given times.  Modelled from the spec. -/
def ProviderBudget.grantsAfter (cfg : BudgetConfig) (grants : List Nat) :
    List Nat → List Nat
  | [] => grants
  | t :: ts => ProviderBudget.grantsAfter cfg (ProviderBudget.tryAcquire cfg grants t).2 ts

/-- Helper: flattening a map of flatten equals flattening twice. -/
theorem flatten_map_flatten {α : Type} (L : List (List (List α))) :
    (L.map List.flatten).flatten = L.flatten.flatten := by
  induction L with
  | nil => rfl
  | cons x xs ih => simp [ih]

/-- Helper: a pointwise implication between filters bounds their lengths. -/
theorem filter_length_mono {α : Type} (l : List α) (p q : α → Bool)
    (h : ∀ a ∈ l, p a = true → q a = true) :
    (l.filter p).length ≤ (l.filter q).length := by
  induction l with
  | nil => simp
  | cons x xs ih =>
    have hx := h x (by simp)
    have ih2 := ih (fun a ha => h a (by simp [ha]))
    by_cases hp : p x = true
    · rw [List.filter_cons, if_pos hp, List.filter_cons, if_pos (hx hp)]
      simpa using ih2
    · rw [List.filter_cons, if_neg hp, List.filter_cons]
      split
      · exact le_trans ih2 (by simp)
      · exact ih2

/-- Helper: a map whose function fixes every member is the identity. -/
theorem map_eq_self_of_mem {α : Type} {l : List α} {f : α → α}
    (h : ∀ a ∈ l, f a = a) : l.map f = l := by
  induction l with
  | nil => rfl
  | cons x xs ih => simp [h x (by simp), ih (fun a ha => h a (by simp [ha]))]

/-- Helper: a flatMap whose function yields singletons is the identity. -/
theorem flatMap_eq_self_of_mem {α : Type} {l : List α} {f : α → List α}
    (h : ∀ a ∈ l, f a = [a]) : l.flatMap f = l := by
  induction l with
  | nil => rfl
  | cons x xs ih => simp [h x (by simp), ih (fun a ha => h a (by simp [ha]))]

/-- Helper: the second component of an enumerated pair is a member. -/
theorem snd_mem_of_mem_enum {α : Type} {p : Nat × α} {l : List α}
    (h : p ∈ l.enum) : p.2 ∈ l := by
  obtain ⟨i, x⟩ := p
  obtain ⟨h1, h2, h3⟩ := List.mem_enumFrom h
  exact h3 ▸ List.getElem_mem _

/-- Word count of a unit list. -/
def unitsWc (us : List (List Word)) : Nat := us.flatten.length

/-- Packing concatenates back to the unit list: accumulator form. -/
theorem packGo_flatten (maxW : Nat) (us : List (List Word)) :
    ∀ (acc : List (List Word)) (w : Nat), (packGo maxW acc w us).flatten = acc ++ us := by
  induction us with
  | nil => intro acc w; simp [packGo]
  | cons u rest ih =>
    intro acc w
    rw [packGo]
    split
    · rw [ih]; simp
    · simp [ih]

/-- Packing concatenates back to the unit list. -/
theorem pack_flatten (maxW : Nat) (us : List (List Word)) :
    (pack maxW us).flatten = us := by
  cases us with
  | nil => rfl
  | cons u rest => rw [pack, packGo_flatten]; rfl

/-- Packing never returns the empty chunk list: accumulator form. -/
theorem packGo_ne_nil (maxW : Nat) (us : List (List Word)) :
    ∀ acc w, packGo maxW acc w us ≠ [] := by
  induction us with
  | nil => intro acc w; simp [packGo]
  | cons u rest ih =>
    intro acc w
    rw [packGo]
    split
    · exact ih _ _
    · simp

/-- First chunk produced by the packing loop extends the accumulator. -/
theorem packGo_first (maxW : Nat) (us : List (List Word)) :
    ∀ acc w, ∃ ext rest2, packGo maxW acc w us = (acc ++ ext) :: rest2 := by
  induction us with
  | nil => intro acc w; exact ⟨[], [], by simp [packGo]⟩
  | cons u rest ih =>
    intro acc w
    rw [packGo]
    split
    · obtain ⟨ext, r2, hE⟩ := ih (acc ++ [u]) (w + u.length)
      exact ⟨[u] ++ ext, r2, by simp [hE]⟩
    · exact ⟨[], packGo maxW [u] u.length rest, by simp⟩

/-- Size bounds of packed chunks: a chunk is within maxW words unless it
is a single unit that alone exceeds maxW.  Accumulator form. -/
theorem packGo_bounds (maxW : Nat) (us : List (List Word)) :
    ∀ acc w, w = unitsWc acc → ((∃ u, acc = [u]) ∨ w ≤ maxW) →
      ∀ ch ∈ packGo maxW acc w us,
        unitsWc ch ≤ maxW ∨ ∃ u, ch = [u] ∧ maxW < u.length := by
  induction us with
  | nil =>
    intro acc w hw hb ch hch
    rw [packGo] at hch
    simp at hch
    subst hch
    rcases hb with ⟨u, rfl⟩ | hle
    · by_cases hu : u.length ≤ maxW
      · left; simpa [unitsWc] using hu
      · right; exact ⟨u, rfl, by omega⟩
    · left; omega
  | cons u rest ih =>
    intro acc w hw hb ch hch
    rw [packGo] at hch
    split at hch
    · exact ih _ _ (by simp [unitsWc, hw]) (Or.inr (by assumption)) ch hch
    · rcases List.mem_cons.mp hch with rfl | hch2
      · rcases hb with ⟨u2, rfl⟩ | hle
        · by_cases hu : u2.length ≤ maxW
          · left; simpa [unitsWc] using hu
          · right; exact ⟨u2, rfl, by omega⟩
        · left; omega
      · exact ih [u] u.length (by simp [unitsWc]) (Or.inl ⟨u, rfl⟩) ch hch2

/-- Adjacent packed chunks are maximal: a closed chunk together with the
first unit of the next chunk exceeds maxW.  Accumulator form. -/
theorem packGo_chain (maxW : Nat) (us : List (List Word)) :
    ∀ acc w, w = unitsWc acc →
      List.Chain' (fun l1 l2 => maxW < unitsWc l1 + (l2.head?.getD []).length)
        (packGo maxW acc w us) := by
  induction us with
  | nil => intro acc w hw; rw [packGo]; simp
  | cons u rest ih =>
    intro acc w hw
    rw [packGo]
    split
    · exact ih _ _ (by simp [unitsWc, hw])
    · rw [List.chain'_cons']
      refine ⟨?_, ih [u] u.length (by simp [unitsWc])⟩
      intro y hy
      obtain ⟨ext, r2, hE⟩ := packGo_first maxW rest [u] u.length
      rw [hE] at hy
      simp at hy
      subst hy
      simp only [List.cons_append, List.head?_cons, Option.getD_some]
      omega

/-- Size bounds for pack. -/
theorem pack_bounds (maxW : Nat) (us : List (List Word)) :
    ∀ ch ∈ pack maxW us, unitsWc ch ≤ maxW ∨ ∃ u, ch = [u] ∧ maxW < u.length := by
  cases us with
  | nil => simp [pack]
  | cons u rest =>
    rw [pack]
    exact packGo_bounds maxW rest [u] u.length (by simp [unitsWc]) (Or.inl ⟨u, rfl⟩)

/-- Maximality chain for pack. -/
theorem pack_chain (maxW : Nat) (us : List (List Word)) :
    List.Chain' (fun l1 l2 => maxW < unitsWc l1 + (l2.head?.getD []).length)
      (pack maxW us) := by
  cases us with
  | nil => simp [pack]
  | cons u rest =>
    rw [pack]
    exact packGo_chain maxW rest [u] u.length (by simp [unitsWc])

/-- Chunk words of mkChunks are the flattened unit lists. -/
theorem mkChunks_map_chunkWords (p : List (List (List Word))) :
    (mkChunks p).map chunkWords = p.map List.flatten := by
  unfold mkChunks
  rw [List.map_map]
  have h2 : (p.enum.map Prod.snd).map List.flatten = p.map List.flatten := by
    rw [List.enum_map_snd]
  rw [← h2, List.map_map]
  rfl

/-- Sequence indices of mkChunks are the dense range. -/
theorem mkChunks_map_seqIndex (p : List (List (List Word)))  :
    (mkChunks p).map (fun c => c.seqIndex) = List.range p.length := by
  unfold mkChunks
  rw [List.map_map]
  have h2 : p.enum.map Prod.fst = List.range p.length := List.enum_map_fst p
  rw [← h2]
  rfl

/-- Length of mkChunks. -/
theorem mkChunks_length (p : List (List (List Word))) :
    (mkChunks p).length = p.length := by
  simp [mkChunks]

/-- Units of a member of mkChunks come from the packed list. -/
theorem mkChunks_units_mem {p : List (List (List Word))} {c : Chunk}
    (h : c ∈ mkChunks p) : c.units ∈ p := by
  obtain ⟨q, hq, rfl⟩ := List.mem_map.mp h
  exact snd_mem_of_mem_enum hq

/-- Chain transfer from packed unit lists to chunks. -/
theorem mkChunks_chain {R : List (List Word) → List (List Word) → Prop}
    {p : List (List (List Word))} (h : List.Chain' R p) :
    List.Chain' (fun c1 c2 => R c1.units c2.units) (mkChunks p) := by
  unfold mkChunks
  rw [List.chain'_map]
  have h2 : List.Chain' R (p.enum.map Prod.snd) := by rw [List.enum_map_snd]; exact h
  rw [List.chain'_map] at h2
  exact h2

/-- Shape of a successful split: some nonempty unit list, packed
greedily and indexed, whose concatenation is the document word
sequence. -/
theorem split_ok_spec (pol : ChunkPolicy) (doc : Document) (chunks : List Chunk)
    (h : DocumentChunker.split pol doc = .ok chunks) :
    ∃ units, units ≠ [] ∧ chunks = mkChunks (pack pol.maxChunkWords units) ∧
      units.flatten = docWords doc := by
  unfold DocumentChunker.split at h
  split at h
  · exact absurd h (by simp)
  · rename_i hw
    split at h
    · refine ⟨doc.flatten, ?_, by injection h with h2; exact h2.symm, ?_⟩
      · intro hnil
        apply hw
        have hall := List.flatten_eq_nil_iff.mp hnil
        have : docWords doc = [] := by
          apply List.flatten_eq_nil_iff.mpr
          intro l hl
          obtain ⟨pp, hpp, rfl⟩ := List.mem_map.mp hl
          rw [hall pp hpp]
          rfl
        simp [this]
      · rw [← flatten_map_flatten]
        rfl
    · refine ⟨doc.map paraWords, ?_, by injection h with h2; exact h2.symm, rfl⟩
      intro hnil
      apply hw
      have : doc = [] := by simpa using hnil
      simp [this, docWords]

/-- Chunk lists of a successful split are nonempty. -/
theorem split_ok_ne_nil (pol : ChunkPolicy) (doc : Document) (chunks : List Chunk)
    (h : DocumentChunker.split pol doc = .ok chunks) : chunks ≠ [] := by
  obtain ⟨units, hne, rfl, hflat⟩ := split_ok_spec pol doc chunks h
  intro hnil
  have : pack pol.maxChunkWords units = [] := by
    have := mkChunks_length (pack pol.maxChunkWords units)
    rw [hnil] at this
    exact List.length_eq_zero.mp this.symm
  have h2 : (pack pol.maxChunkWords units).flatten = [] := by rw [this]; rfl
  rw [pack_flatten] at h2
  exact hne h2

/-- Claim C1: for every document given to DocumentChunker.split,
concatenating the source text of the returned chunks in sequence-index
order reconstructs the word sequence of the original document exactly:
no word is dropped and no word is duplicated. -/
theorem chunk_coverage (pol : ChunkPolicy) (doc : Document) (chunks : List Chunk)
    (h : DocumentChunker.split pol doc = .ok chunks) :
    (chunks.map chunkWords).flatten = docWords doc := by
  obtain ⟨units, hne, rfl, hflat⟩ := split_ok_spec pol doc chunks h
  rw [mkChunks_map_chunkWords, flatten_map_flatten, pack_flatten, hflat]

/-- Decidable equality for Except, needed to evaluate split results on
concrete inputs. -/
instance {e a : Type} [DecidableEq e] [DecidableEq a] : DecidableEq (Except e a)
  | .error x, .error y =>
    if h : x = y then isTrue (congrArg Except.error h)
    else isFalse (fun hh => h (Except.error.inj hh))
  | .error _, .ok _ => isFalse (fun hh => Except.noConfusion hh)
  | .ok _, .error _ => isFalse (fun hh => Except.noConfusion hh)
  | .ok x, .ok y =>
    if h : x = y then isTrue (congrArg Except.ok h)
    else isFalse (fun hh => h (Except.ok.inj hh))

/-- Statement of claim C6 at one policy and document, as the claim is
written: every chunk except possibly the final one has at least
minChunkWords words, and no chunk exceeds maxChunkWords unless it is a
single unit that alone exceeds maxChunkWords. -/
def chunkSizeClaim (pol : ChunkPolicy) (doc : Document) : Prop :=
  ∀ chunks, DocumentChunker.split pol doc = .ok chunks →
    (∀ c ∈ chunks.dropLast, pol.minChunkWords ≤ chunkWc c) ∧
    (∀ c ∈ chunks, chunkWc c ≤ pol.maxChunkWords ∨
      ∃ u, c.units = [u] ∧ pol.maxChunkWords < u.length)

/-- Counterexample to claim C6 as stated: with maxChunkWords 20 and
minChunkWords 5, a document of a 1-word paragraph followed by a 20-word
paragraph is split into a non-final chunk of 1 word (the second
paragraph does not fit next to the first), violating the minimum-size
guarantee. -/
theorem chunk_size_claim_cex :
    ¬ chunkSizeClaim ⟨20, 5, 1000⟩ [[["w"]], [List.replicate 20 "w"]] := by
  intro h
  have h2 := h [⟨0, [["w"]]⟩, ⟨1, [List.replicate 20 "w"]⟩] (by decide)
  exact absurd (h2.1 ⟨0, [["w"]]⟩ (by decide)) (by decide)

/-- Claim C6 (amended): in every successful split, no chunk exceeds
maxChunkWords unless it is a single paragraph or sentence that alone
exceeds maxChunkWords (that unit becomes its own oversized chunk rather
than being truncated); and every chunk is maximal, in the sense that a
chunk together with the first unit of the following chunk would exceed
maxChunkWords.  A chunk may therefore fall below minChunkWords, even
when it is not the final chunk, exactly when the unit that follows it is
too large to join it. -/
theorem chunk_size_bounds (pol : ChunkPolicy) (doc : Document) (chunks : List Chunk)
    (h : DocumentChunker.split pol doc = .ok chunks) :
    List.Chain' (fun c1 c2 =>
      pol.maxChunkWords < chunkWc c1 + (c2.units.head?.getD []).length) chunks ∧
    ∀ c ∈ chunks, chunkWc c ≤ pol.maxChunkWords ∨
      ∃ u, c.units = [u] ∧ pol.maxChunkWords < u.length := by
  obtain ⟨units, hne, rfl, hflat⟩ := split_ok_spec pol doc chunks h
  constructor
  · exact mkChunks_chain (pack_chain pol.maxChunkWords units)
  · intro c hc
    exact pack_bounds pol.maxChunkWords units c.units (mkChunks_units_mem hc)

/-- Witness for the amended claim C6 at the counterexample input. -/
theorem chunk_size_bounds_witness :
    List.Chain' (fun c1 c2 =>
      (20 : Nat) < chunkWc c1 + (c2.units.head?.getD []).length)
      [⟨0, [["w"]]⟩, ⟨1, [List.replicate 20 "w"]⟩] ∧
    ∀ c ∈ ([⟨0, [["w"]]⟩, ⟨1, [List.replicate 20 "w"]⟩] : List Chunk),
      chunkWc c ≤ 20 ∨ ∃ u, c.units = [u] ∧ 20 < u.length :=
  chunk_size_bounds ⟨20, 5, 1000⟩ [[["w"]], [List.replicate 20 "w"]]
    [⟨0, [["w"]]⟩, ⟨1, [List.replicate 20 "w"]⟩] (by decide)

/-- Claim C5: DocumentChunker.split fails with EmptyDocument exactly when
the input has zero words, and in that case the job goes to Failed
immediately with no partial work: no chunk is produced, no result is
recorded and no provider call is made. -/
theorem empty_document_fails (provider : Nat → Nat → Outcome) (pol : ChunkPolicy)
    (maxRetries : Nat) (doc : Document) :
    (DocumentChunker.split pol doc = .error .emptyDocument ↔ docWords doc = []) ∧
    (docWords doc = [] →
      runJob provider pol maxRetries doc = ⟨.failed, []⟩ ∧
      providerCalls (runJob provider pol maxRetries doc) = 0) := by
  have hiff : DocumentChunker.split pol doc = .error .emptyDocument ↔ docWords doc = [] := by
    constructor
    · intro h
      unfold DocumentChunker.split at h
      split at h
      · rename_i hz
        exact List.length_eq_zero.mp hz
      · split at h <;> exact absurd h (by simp)
    · intro h
      unfold DocumentChunker.split
      rw [if_pos (by simp [h])]
  refine ⟨hiff, fun h => ?_⟩
  have hs := hiff.mpr h
  unfold runJob
  rw [hs]
  exact ⟨rfl, by simp [providerCalls, hs]⟩

/-- Witness for claim C5 at the empty document and at a document whose
paragraphs hold no words. -/
theorem empty_document_fails_witness :
    (DocumentChunker.split ⟨20, 5, 1000⟩ [[[]]] = .error .emptyDocument ↔
      docWords [[[]]] = []) ∧
    (docWords [[[]]] = [] →
      runJob (fun _ _ => .transient) ⟨20, 5, 1000⟩ 3 [[[]]] = ⟨.failed, []⟩ ∧
      providerCalls (runJob (fun _ _ => .transient) ⟨20, 5, 1000⟩ 3 [[[]]]) = 0) :=
  empty_document_fails (fun _ _ => .transient) ⟨20, 5, 1000⟩ 3 [[[]]]

/-- Witness for claim C1: a concrete two-paragraph document is split and
its chunks concatenate back to the document words. -/
theorem chunk_coverage_witness :
    DocumentChunker.split ⟨20, 5, 1000⟩ [[["a", "b"]], [["c"], ["d", "e"]]] =
      .ok [⟨0, [["a", "b"], ["c", "d", "e"]]⟩] ∧
    (([⟨0, [["a", "b"], ["c", "d", "e"]]⟩] : List Chunk).map chunkWords).flatten =
      docWords [[["a", "b"]], [["c"], ["d", "e"]]] :=
  ⟨by decide, chunk_coverage ⟨20, 5, 1000⟩ [[["a", "b"]], [["c"], ["d", "e"]]]
    [⟨0, [["a", "b"], ["c", "d", "e"]]⟩] (by decide)⟩

/-- Terminal job state classification from a nonempty result list. -/
theorem state_iff (R : List TransformationResult) (hne : R ≠ []) (st : JobState)
    (hst : st = if R.all resultOk then JobState.completed
      else if R.all (fun r => !resultOk r) then JobState.failed
      else JobState.partiallyFailed) :
    (st = JobState.failed ↔ ∀ r ∈ R, r.output = none) ∧
    (st = JobState.partiallyFailed ↔
      ((∃ r ∈ R, r.output ≠ none) ∧ ∃ r ∈ R, r.output = none)) ∧
    (st = JobState.completed ↔ ∀ r ∈ R, r.output ≠ none) := by
  subst hst
  have hOk : ∀ r : TransformationResult, resultOk r = true ↔ r.output ≠ none := fun r => by
    simp [resultOk, Option.isSome_iff_ne_none]
  have hNotOk : ∀ r : TransformationResult, resultOk r = false ↔ r.output = none := fun r => by
    cases hro : r.output <;> simp [resultOk, hro]
  obtain ⟨r0, hr0⟩ := List.exists_mem_of_ne_nil R hne
  by_cases h1 : R.all resultOk = true
  · have hall : ∀ r ∈ R, r.output ≠ none :=
      fun r hr => (hOk r).mp (List.all_eq_true.mp h1 r hr)
    rw [if_pos h1]
    refine ⟨⟨fun hc => absurd hc (by simp), fun hc => absurd (hc r0 hr0) (hall r0 hr0)⟩,
      ⟨fun hc => absurd hc (by simp), fun hc => ?_⟩, ⟨fun _ => hall, fun _ => rfl⟩⟩
    obtain ⟨r1, hr1, hr1n⟩ := hc.2
    exact absurd hr1n (hall r1 hr1)
  · have hex : ∃ r ∈ R, r.output = none := by
      have := List.all_eq_true.not.mp h1
      push_neg at this
      obtain ⟨r1, hr1, hr1n⟩ := this
      exact ⟨r1, hr1, (hNotOk r1).mp (by simpa using hr1n)⟩
    rw [if_neg h1]
    by_cases h2 : R.all (fun r => !resultOk r) = true
    · have hall : ∀ r ∈ R, r.output = none := fun r hr => by
        have := List.all_eq_true.mp h2 r hr
        exact (hNotOk r).mp (by simpa using this)
      rw [if_pos h2]
      refine ⟨⟨fun _ => hall, fun _ => rfl⟩, ⟨fun hc => absurd hc (by simp), fun hc => ?_⟩,
        ⟨fun hc => absurd hc (by simp), fun hc => absurd (hall r0 hr0) (hc r0 hr0)⟩⟩
      obtain ⟨r1, hr1, hr1s⟩ := hc.1
      exact absurd (hall r1 hr1) hr1s
    · have hexs : ∃ r ∈ R, r.output ≠ none := by
        have := List.all_eq_true.not.mp h2
        push_neg at this
        obtain ⟨r1, hr1, hr1n⟩ := this
        exact ⟨r1, hr1, (hOk r1).mp (by simpa using hr1n)⟩
      rw [if_neg h2]
      obtain ⟨r2, hr2, hr2n⟩ := id hex
      refine ⟨⟨fun hc => absurd hc (by simp), fun hc => ?_⟩, ⟨fun _ => ⟨hexs, hex⟩,
        fun _ => rfl⟩, ⟨fun hc => absurd hc (by simp), fun hc => absurd (hc r2 hr2) (by simp [hr2n])⟩⟩
      obtain ⟨r3, hr3, hr3s⟩ := hexs
      exact absurd (hc r3 hr3) hr3s

/-- Unfolding of runJob on a successful split. -/
theorem runJob_ok (provider : Nat → Nat → Outcome) (pol : ChunkPolicy) (maxRetries : Nat)
    (doc : Document) (chunks : List Chunk) (h : DocumentChunker.split pol doc = .ok chunks) :
    runJob provider pol maxRetries doc =
      ⟨if (chunks.map (runChunk provider maxRetries)).all resultOk then JobState.completed
        else if (chunks.map (runChunk provider maxRetries)).all (fun r => !resultOk r) then
          JobState.failed
        else JobState.partiallyFailed,
       chunks.map (runChunk provider maxRetries)⟩ := by
  unfold runJob
  rw [h]

/-- Concrete policy for the four-chunk scenario of claim C2. -/
def polFour : ChunkPolicy := ⟨3, 1, 1000⟩

/-- Concrete four-paragraph document giving four chunks of three words. -/
def docFour : Document :=
  [[["w", "w", "w"]], [["w", "w", "w"]], [["w", "w", "w"]], [["w", "w", "w"]]]

/-- Chunks of docFour under polFour. -/
def chunksFour : List Chunk :=
  [⟨0, [["w", "w", "w"]]⟩, ⟨1, [["w", "w", "w"]]⟩, ⟨2, [["w", "w", "w"]]⟩,
   ⟨3, [["w", "w", "w"]]⟩]

/-- Provider oracle for which chunk 2 of 4 (index 1) always fails
fatally and every other chunk succeeds on the first attempt. -/
def providerFour : Nat → Nat → Outcome :=
  fun ci _ => if ci = 1 then .fatal else .success "out"

/-- Results of the four-chunk scenario: three successes and one
fatal failure at index 1, one attempt each. -/
def resultsFour : List TransformationResult :=
  [⟨0, some "out", 1⟩, ⟨1, none, 1⟩, ⟨2, some "out", 1⟩, ⟨3, some "out", 1⟩]

/-- Claim C2: a chunk reaching FailedFatal never aborts the job: one
result is recorded per chunk, so every subsequent chunk is still
processed; the terminal state is Failed exactly when every chunk failed
(given that chunking succeeded), PartiallyFailed exactly when successes
and failures coexist, and Completed exactly when every chunk succeeded.
In the concrete scenario where chunk 2 of 4 always fails fatally and the
rest succeed, the job ends PartiallyFailed with 3 successful results,
exactly one placeholder, and results recorded for chunks 3 and 4. -/
theorem partial_failure_resilience (provider : Nat → Nat → Outcome) (pol : ChunkPolicy)
    (maxRetries : Nat) (doc : Document) (chunks : List Chunk)
    (h : DocumentChunker.split pol doc = .ok chunks) :
    ((runJob provider pol maxRetries doc).results.length = chunks.length ∧
     ((runJob provider pol maxRetries doc).state = JobState.failed ↔
       ∀ r ∈ (runJob provider pol maxRetries doc).results, r.output = none) ∧
     ((runJob provider pol maxRetries doc).state = JobState.partiallyFailed ↔
       ((∃ r ∈ (runJob provider pol maxRetries doc).results, r.output ≠ none) ∧
        ∃ r ∈ (runJob provider pol maxRetries doc).results, r.output = none)) ∧
     ((runJob provider pol maxRetries doc).state = JobState.completed ↔
       ∀ r ∈ (runJob provider pol maxRetries doc).results, r.output ≠ none)) ∧
    (runJob providerFour polFour 3 docFour = ⟨JobState.partiallyFailed, resultsFour⟩ ∧
     successCount resultsFour = 3 ∧ placeholderCount resultsFour = 1 ∧
     resultsFour.length = 4 ∧
     aggregateText resultsFour = "out\n\n[CHUNK FAILED]\n\nout\n\nout") := by
  refine ⟨?_, by decide, by decide, by decide, by decide, by decide⟩
  have hne : chunks ≠ [] := split_ok_ne_nil pol doc chunks h
  have hRne : chunks.map (runChunk provider maxRetries) ≠ [] := by
    simpa using hne
  rw [runJob_ok provider pol maxRetries doc chunks h]
  exact ⟨by simp, state_iff (chunks.map (runChunk provider maxRetries)) hRne _ rfl⟩

/-- Witness for claim C2 at the four-chunk scenario. -/
theorem partial_failure_resilience_witness :
    DocumentChunker.split polFour docFour = .ok chunksFour ∧
    (runJob providerFour polFour 3 docFour).results.length = chunksFour.length :=
  ⟨by decide,
   (partial_failure_resilience providerFour polFour 3 docFour chunksFour (by decide)).1.1⟩

/-- Claim C7: in every job run the TransformationResults are recorded in
strictly increasing chunk sequence order; the recorded indices are
exactly the dense range of the chunk count, so no result for chunk k+1
is recorded before the terminal outcome of chunk k. -/
theorem order_preservation (provider : Nat → Nat → Outcome) (pol : ChunkPolicy)
    (maxRetries : Nat) (doc : Document) (chunks : List Chunk)
    (h : DocumentChunker.split pol doc = .ok chunks) :
    (runJob provider pol maxRetries doc).results.map (fun r => r.seqIndex) =
      List.range chunks.length ∧
    List.Pairwise (· < ·)
      ((runJob provider pol maxRetries doc).results.map (fun r => r.seqIndex)) := by
  have hmap : (runJob provider pol maxRetries doc).results.map (fun r => r.seqIndex) =
      List.range chunks.length := by
    rw [runJob_ok provider pol maxRetries doc chunks h]
    obtain ⟨units, hne, rfl, hflat⟩ := split_ok_spec pol doc chunks h
    show ((mkChunks (pack pol.maxChunkWords units)).map
      (runChunk provider maxRetries)).map (fun r => r.seqIndex) = _
    rw [List.map_map, mkChunks_length]
    have : ((fun r : TransformationResult => r.seqIndex) ∘ runChunk provider maxRetries) =
        fun c : Chunk => c.seqIndex := rfl
    rw [this, mkChunks_map_seqIndex]
  refine ⟨hmap, ?_⟩
  rw [hmap]
  exact List.pairwise_lt_range chunks.length

/-- Witness for claim C7 at the four-chunk scenario. -/
theorem order_preservation_witness :
    (runJob providerFour polFour 3 docFour).results.map (fun r => r.seqIndex) =
      List.range chunksFour.length ∧
    List.Pairwise (· < ·)
      ((runJob providerFour polFour 3 docFour).results.map (fun r => r.seqIndex)) :=
  order_preservation providerFour polFour 3 docFour chunksFour (by decide)

/-- Attempt numbers returned by the retry loop never exceed maxRetries
when the starting attempt number does not. -/
theorem runAttempts_le (provider : Nat → Nat → Outcome) (ci maxRetries : Nat) :
    ∀ fuel attempt, attempt ≤ maxRetries →
      (runAttempts provider ci maxRetries fuel attempt).1 ≤ maxRetries := by
  intro fuel
  induction fuel with
  | zero =>
    intro attempt h
    rw [runAttempts]
    cases provider ci attempt <;> simpa using h
  | succ f ih =>
    intro attempt h
    rw [runAttempts]
    cases provider ci attempt
    · simpa using h
    · by_cases hlt : attempt < maxRetries
      · simpa [hlt] using ih (attempt + 1) (by omega)
      · simpa [hlt] using h
    · simpa using h

/-- Claim C4: the number of attempts on a chunk never exceeds maxRetries
(for any positive maxRetries), the capped exponential backoff is
monotonically non-decreasing in the attempt number, and with an additive
jitter bounded by the base the jittered delays are non-decreasing as
long as the exponential has not reached the cap. -/
theorem retry_bound_and_backoff :
    (∀ (provider : Nat → Nat → Outcome) (maxRetries : Nat) (c : Chunk),
      1 ≤ maxRetries → (runChunk provider maxRetries c).attempts ≤ maxRetries) ∧
    (∀ base cap n : Nat,
      RetryPolicy.backoffRaw base cap n ≤ RetryPolicy.backoffRaw base cap (n + 1)) ∧
    (∀ base cap n j j2 : Nat, 1 ≤ n → j ≤ base → base * 2 ^ n ≤ cap →
      RetryPolicy.backoffDelay base cap n j ≤ RetryPolicy.backoffDelay base cap (n + 1) j2) := by
  refine ⟨?_, ?_, ?_⟩
  · intro provider maxRetries c h
    exact runAttempts_le provider c.seqIndex maxRetries maxRetries 1 h
  · intro base cap n
    unfold RetryPolicy.backoffRaw
    exact min_le_min (Nat.mul_le_mul_left _ (Nat.pow_le_pow_right (by norm_num) (by omega))) le_rfl
  · intro base cap n j j2 h1 hj hcap
    have h2 : base * 2 ^ (n - 1) ≤ base * 2 ^ n :=
      Nat.mul_le_mul_left _ (Nat.pow_le_pow_right (by norm_num) (by omega))
    have hr1 : RetryPolicy.backoffRaw base cap n = base * 2 ^ (n - 1) :=
      min_eq_left (le_trans h2 hcap)
    have hr2 : RetryPolicy.backoffRaw base cap (n + 1) = base * 2 ^ n := by
      unfold RetryPolicy.backoffRaw
      simpa using min_eq_left hcap
    unfold RetryPolicy.backoffDelay
    rw [hr1, hr2]
    have h3 : base * 2 ^ n = base * 2 ^ (n - 1) + base * 2 ^ (n - 1) := by
      have hp : 2 ^ n = 2 ^ (n - 1) * 2 := by
        rw [← pow_succ]
        congr 1
        omega
      rw [hp]
      ring
    have h4 : base ≤ base * 2 ^ (n - 1) :=
      Nat.le_mul_of_pos_right _ (Nat.pos_pow_of_pos _ (by norm_num))
    omega

/-- Witness for claim C4 at concrete numbers: a provider that always
fails transiently, maxRetries 3, base 100 ms, cap 10000 ms. -/
theorem retry_bound_and_backoff_witness :
    (runChunk (fun _ _ => Outcome.transient) 3 ⟨0, []⟩).attempts ≤ 3 ∧
    RetryPolicy.backoffRaw 100 10000 1 ≤ RetryPolicy.backoffRaw 100 10000 2 ∧
    RetryPolicy.backoffDelay 100 10000 1 50 ≤ RetryPolicy.backoffDelay 100 10000 2 0 :=
  ⟨retry_bound_and_backoff.1 (fun _ _ => Outcome.transient) 3 ⟨0, []⟩ (by decide),
   retry_bound_and_backoff.2.1 100 10000 1,
   retry_bound_and_backoff.2.2 100 10000 1 50 0 (by decide) (by decide) (by decide)⟩

/-- One acquisition attempt preserves the budget invariants: grants are
descending with at least minSpacingMs between neighbours, and every
rolling window of windowMs milliseconds holds at most quota grants. -/
theorem tryAcquire_inv (cfg : BudgetConfig) (grants : List Nat) (now : Nat)
    (hc : List.Chain' (fun a b => b + cfg.minSpacingMs ≤ a) grants)
    (hw : ∀ t : Nat, ((grants.filter
      (fun g => decide (t < g ∧ g ≤ t + cfg.windowMs))).length ≤ cfg.quota)) :
    List.Chain' (fun a b => b + cfg.minSpacingMs ≤ a)
      (ProviderBudget.tryAcquire cfg grants now).2 ∧
    ∀ t : Nat, (((ProviderBudget.tryAcquire cfg grants now).2.filter
      (fun g => decide (t < g ∧ g ≤ t + cfg.windowMs))).length ≤ cfg.quota) := by
  unfold ProviderBudget.tryAcquire
  split
  · rename_i hcan
    unfold ProviderBudget.canGrant at hcan
    rw [Bool.and_eq_true] at hcan
    obtain ⟨hq, hsp⟩ := hcan
    have hq2 : (grants.filter (fun g => decide (now < g + cfg.windowMs))).length < cfg.quota :=
      of_decide_eq_true hq
    constructor
    · rw [List.chain'_cons']
      refine ⟨?_, hc⟩
      intro y hy
      cases grants with
      | nil => simp at hy
      | cons g0 gs =>
        simp at hy
        have hg := of_decide_eq_true
          (show decide (g0 + cfg.minSpacingMs ≤ now) = true from hsp)
        omega
    · intro t
      by_cases hnow : (decide (t < now ∧ now ≤ t + cfg.windowMs)) = true
      · rw [List.filter_cons, if_pos hnow]
        obtain ⟨ht1, ht2⟩ := of_decide_eq_true hnow
        have hsub : (grants.filter (fun g => decide (t < g ∧ g ≤ t + cfg.windowMs))).length ≤
            (grants.filter (fun g => decide (now < g + cfg.windowMs))).length := by
          apply filter_length_mono
          intro g hg hgt
          obtain ⟨hg1, hg2⟩ := of_decide_eq_true hgt
          exact decide_eq_true (by omega)
        simp only [List.length_cons]
        omega
      · rw [List.filter_cons, if_neg hnow]
        exact hw t
  · exact ⟨hc, hw⟩

/-- The budget invariants hold after any sequence of acquisition
attempts, starting from any state that satisfies them. -/
theorem grantsAfter_inv (cfg : BudgetConfig) (attempts : List Nat) :
    ∀ grants, List.Chain' (fun a b => b + cfg.minSpacingMs ≤ a) grants →
      (∀ t : Nat, ((grants.filter
        (fun g => decide (t < g ∧ g ≤ t + cfg.windowMs))).length ≤ cfg.quota)) →
      List.Chain' (fun a b => b + cfg.minSpacingMs ≤ a)
        (ProviderBudget.grantsAfter cfg grants attempts) ∧
      ∀ t : Nat, (((ProviderBudget.grantsAfter cfg grants attempts).filter
        (fun g => decide (t < g ∧ g ≤ t + cfg.windowMs))).length ≤ cfg.quota) := by
  induction attempts with
  | nil =>
    intro grants hc hw
    rw [ProviderBudget.grantsAfter]
    exact ⟨hc, hw⟩
  | cons t ts ih =>
    intro grants hc hw
    rw [ProviderBudget.grantsAfter]
    obtain ⟨h1, h2⟩ := tryAcquire_inv cfg grants t hc hw
    exact ih _ h1 h2

/-- Claim C3: for every sequence of acquisition attempts against one
ProviderBudget, every rolling window of windowMs milliseconds (the
interval of times u with t strictly less than u and u at most
t + windowMs) contains at most quota grants, and any two consecutive
grants are separated by at least minSpacingMs; the grant list is held
most recent first, so the last conjunct states the spacing in
chronological order. -/
theorem budget_respect (cfg : BudgetConfig) (attempts : List Nat) :
    (∀ t : Nat, ((ProviderBudget.grantsAfter cfg [] attempts).filter
        (fun g => decide (t < g ∧ g ≤ t + cfg.windowMs))).length ≤ cfg.quota) ∧
    List.Chain' (fun a b => b + cfg.minSpacingMs ≤ a)
      (ProviderBudget.grantsAfter cfg [] attempts) ∧
    List.Chain' (fun a b => a + cfg.minSpacingMs ≤ b)
      (ProviderBudget.grantsAfter cfg [] attempts).reverse := by
  have h := grantsAfter_inv cfg attempts [] (by simp) (fun t => by simp)
  refine ⟨h.2, h.1, ?_⟩
  rw [List.chain'_reverse]
  exact h.1

/-- Predicate: every character of the list is JavaScript whitespace. -/
def AllWs (l : List Char) : Prop := ∀ c ∈ l, isWs c = true

/-- Decidability of the all-whitespace predicate. -/
instance (l : List Char) : Decidable (AllWs l) := List.decidableBAll _ l

/-- Smart-quote conversion fixes whitespace characters. -/
theorem smartQuoteChar_ws {c : Char} (h : isWs c = true) : smartQuoteChar c = c := by
  unfold isWs at h
  rw [decide_eq_true_eq] at h
  unfold smartQuoteChar
  rw [if_neg (by omega), if_neg (by omega)]

/-- NBSP conversion sends whitespace to whitespace. -/
theorem nbspChar_ws {c : Char} (h : isWs c = true) : isWs (nbspChar c) = true := by
  unfold nbspChar
  split
  · decide
  · exact h

/-- Special-space conversion sends whitespace to whitespace. -/
theorem specialSpaceChar_ws {c : Char} (h : isWs c = true) : isWs (specialSpaceChar c) = true := by
  unfold specialSpaceChar
  split
  · decide
  · exact h

/-- Dash conversion fixes whitespace characters. -/
theorem dashChar_ws {c : Char} (h : isWs c = true) : dashChar c = c := by
  unfold isWs at h
  rw [decide_eq_true_eq] at h
  unfold dashChar
  rw [if_neg (by omega)]

/-- Ellipsis conversion fixes whitespace characters. -/
theorem ellipsisChar_ws {c : Char} (h : isWs c = true) : ellipsisChar c = [c] := by
  unfold isWs at h
  rw [decide_eq_true_eq] at h
  unfold ellipsisChar
  rw [if_neg (by omega)]

/-- Whitespace characters are not sentence punctuation. -/
theorem punct_not_ws {c : Char} (h : isWs c = true) : isSentencePunct c = false := by
  unfold isWs at h
  rw [decide_eq_true_eq] at h
  have h1 : ¬(c = '.') := by intro hc; subst hc; revert h; decide
  have h2 : ¬(c = '!') := by intro hc; subst hc; revert h; decide
  have h3 : ¬(c = '?') := by intro hc; subst hc; revert h; decide
  simp [isSentencePunct, h1, h2, h3]

/-- Members of the whitespace-collapse output come from the input or are
the space character. -/
theorem mem_collapseWsGo {c : Char} :
    ∀ (l : List Char) (skip : Bool), c ∈ collapseWsGo skip l → c ∈ l ∨ c = ' ' := by
  intro l
  induction l with
  | nil => intro skip h; rw [collapseWsGo] at h; simp at h
  | cons a rest ih =>
    intro skip h
    rw [collapseWsGo] at h
    split at h
    · split at h
      · rcases ih true h with hm | hs
        · exact Or.inl (List.mem_cons_of_mem a hm)
        · exact Or.inr hs
      · split at h
        · rcases List.mem_cons.mp h with rfl | h2
          · exact Or.inr rfl
          · rcases ih true h2 with hm | hs
            · exact Or.inl (List.mem_cons_of_mem a hm)
            · exact Or.inr hs
        · rcases List.mem_cons.mp h with rfl | h2
          · exact Or.inl (by simp)
          · rcases ih false h2 with hm | hs
            · exact Or.inl (List.mem_cons_of_mem a hm)
            · exact Or.inr hs
    · rcases List.mem_cons.mp h with rfl | h2
      · exact Or.inl (by simp)
      · rcases ih false h2 with hm | hs
        · exact Or.inl (List.mem_cons_of_mem a hm)
        · exact Or.inr hs

/-- Members of the trailing-space-strip output come from the input. -/
theorem mem_stripTrailGo {c : Char} :
    ∀ (l : List Char) (flag : Bool), c ∈ stripTrailGo flag l → c ∈ l := by
  intro l
  induction l with
  | nil => intro flag h; rw [stripTrailGo] at h; simp at h
  | cons a rest ih =>
    intro flag h
    rw [stripTrailGo] at h
    split at h
    · exact List.mem_cons_of_mem a (ih true h)
    · rcases List.mem_cons.mp h with rfl | h2
      · simp
      · exact List.mem_cons_of_mem a (ih _ h2)

/-- Members of the newline-collapse output come from the input or are a
newline. -/
theorem mem_collapseNlGo {c : Char} :
    ∀ (l : List Char) (skip : Bool), c ∈ collapseNlGo skip l → c ∈ l ∨ c = '\n' := by
  intro l
  induction l with
  | nil => intro skip h; rw [collapseNlGo] at h; simp at h
  | cons a rest ih =>
    intro skip h
    rw [collapseNlGo] at h
    split at h
    · split at h
      · rcases ih true h with hm | hs
        · exact Or.inl (List.mem_cons_of_mem a hm)
        · exact Or.inr hs
      · split at h
        · rcases List.mem_cons.mp h with rfl | h2
          · exact Or.inr rfl
          · rcases List.mem_cons.mp h2 with rfl | h3
            · exact Or.inr rfl
            · rcases ih true h3 with hm | hs
              · exact Or.inl (List.mem_cons_of_mem a hm)
              · exact Or.inr hs
        · rcases List.mem_cons.mp h with rfl | h2
          · exact Or.inl (by simp)
          · rcases ih false h2 with hm | hs
            · exact Or.inl (List.mem_cons_of_mem a hm)
            · exact Or.inr hs
    · rcases List.mem_cons.mp h with rfl | h2
      · exact Or.inl (by simp)
      · rcases ih false h2 with hm | hs
        · exact Or.inl (List.mem_cons_of_mem a hm)
        · exact Or.inr hs

/-- Members of the leading-indent-strip output come from the input. -/
theorem mem_stripLeadGo {c : Char} :
    ∀ (l : List Char) (flag : Bool), c ∈ stripLeadGo flag l → c ∈ l := by
  intro l
  induction l with
  | nil => intro flag h; rw [stripLeadGo] at h; simp at h
  | cons a rest ih =>
    intro flag h
    rw [stripLeadGo] at h
    split at h
    · exact List.mem_cons_of_mem a (ih _ h)
    · rcases List.mem_cons.mp h with rfl | h2
      · simp
      · exact List.mem_cons_of_mem a (ih _ h2)

/-- Members of the CRLF-removal output come from the input or are a
newline. -/
theorem mem_dropCRLF {c : Char} :
    ∀ (l : List Char), c ∈ dropCRLF l → c ∈ l ∨ c = '\n' := by
  intro l
  induction l using dropCRLF.induct with
  | case1 => intro h; simp [dropCRLF] at h
  | case2 a => intro h; rw [dropCRLF] at h; exact Or.inl h
  | case3 a b rest hab ih =>
    intro h
    rw [dropCRLF, if_pos hab] at h
    rcases List.mem_cons.mp h with rfl | h2
    · exact Or.inr rfl
    · rcases ih h2 with hm | hs
      · exact Or.inl (by simp [hm])
      · exact Or.inr hs
  | case4 a b rest hab ih =>
    intro h
    rw [dropCRLF, if_neg hab] at h
    rcases List.mem_cons.mp h with rfl | h2
    · exact Or.inl (by simp)
    · rcases ih h2 with hm | hs
      · exact Or.inl (by simp [hm])
      · exact Or.inr hs

/-- Members of the trim output come from the input. -/
theorem mem_jsTrim {c : Char} {l : List Char} (h : c ∈ jsTrim l) : c ∈ l := by
  unfold jsTrim at h
  rw [List.mem_reverse] at h
  have h2 : c ∈ (l.dropWhile isWs).reverse :=
    (List.dropWhile_suffix isWs).sublist.mem h
  rw [List.mem_reverse] at h2
  exact (List.dropWhile_suffix isWs).sublist.mem h2

/-- The line splitter never returns an empty list of lines. -/
theorem splitLines_ne_nil : ∀ l : List Char, splitLines l ≠ [] := by
  intro l
  cases l with
  | nil => simp [splitLines]
  | cons a rest =>
    rw [splitLines]
    split
    · simp
    · split <;> simp

/-- Characters of any line produced by the line splitter come from the
input. -/
theorem splitLines_mem :
    ∀ (l : List Char) (line : List Char), line ∈ splitLines l → ∀ c ∈ line, c ∈ l := by
  intro l
  induction l with
  | nil =>
    intro line hline c hc
    rw [splitLines] at hline
    simp at hline
    subst hline
    simp at hc
  | cons a rest ih =>
    intro line hline c hc
    rw [splitLines] at hline
    split at hline
    · rcases List.mem_cons.mp hline with rfl | h2
      · simp at hc
      · exact List.mem_cons_of_mem a (ih line h2 c hc)
    · rename_i ha
      cases hsl : splitLines rest with
      | nil => exact absurd hsl (splitLines_ne_nil rest)
      | cons l0 ls =>
        rw [hsl] at hline
        rcases List.mem_cons.mp hline with rfl | h2
        · rcases List.mem_cons.mp hc with rfl | h3
          · simp
          · exact List.mem_cons_of_mem a (ih l0 (by rw [hsl]; simp) c h3)
        · exact List.mem_cons_of_mem a (ih line (by rw [hsl]; simp [h2]) c hc)

/-- Joining the split lines restores the string. -/
theorem joinLines_splitLines : ∀ l : List Char, joinLines (splitLines l) = l := by
  intro l
  induction l with
  | nil => rfl
  | cons a rest ih =>
    rw [splitLines]
    by_cases ha : a = '\n'
    · rw [if_pos ha]
      subst ha
      cases hsl : splitLines rest with
      | nil => exact absurd hsl (splitLines_ne_nil rest)
      | cons l0 ls =>
        have hj : joinLines ([] :: l0 :: ls) = [] ++ '\n' :: joinLines (l0 :: ls) := rfl
        rw [hj, ← hsl, ih]
        rfl
    · rw [if_neg ha]
      cases hsl : splitLines rest with
      | nil => exact absurd hsl (splitLines_ne_nil rest)
      | cons l0 ls =>
        rw [hsl] at ih
        cases ls with
        | nil =>
          have hj : joinLines [a :: l0] = a :: l0 := rfl
          have hj2 : joinLines [l0] = l0 := rfl
          rw [hj2] at ih
          rw [hj, ih]
        | cons l1 ls2 =>
          have hj : joinLines ((a :: l0) :: l1 :: ls2) =
              (a :: l0) ++ '\n' :: joinLines (l1 :: ls2) := rfl
          have hj2 : joinLines (l0 :: l1 :: ls2) = l0 ++ '\n' :: joinLines (l1 :: ls2) := rfl
          rw [hj2] at ih
          rw [hj, List.cons_append, ih]

/-- The sentence splitter is the identity on lines without sentence
punctuation. -/
theorem ssGo_no_punct :
    ∀ l : List Char, (∀ c ∈ l, isSentencePunct c = false) → ssGo none l = l := by
  intro l
  induction l with
  | nil => intro h; rfl
  | cons a rest ih =>
    intro h
    rw [ssGo]
    rw [if_neg (by simp [h a (List.mem_cons_self a rest)])]
    rw [ih (fun c hc => h c (List.mem_cons_of_mem a hc))]

/-- Step 14 is the identity on all-whitespace strings. -/
theorem splitLongLines_of_allWs {l : List Char} (h : AllWs l) : splitLongLines l = l := by
  unfold splitLongLines
  have hmap : (splitLines l).map
      (fun line => if line.length > 500 then sentenceSplitLine line else line) = splitLines l := by
    apply map_eq_self_of_mem
    intro line hline
    split
    · exact ssGo_no_punct line
        (fun c hc => punct_not_ws (h c (splitLines_mem l line hline c hc)))
    · rfl
  rw [hmap, joinLines_splitLines]

/-- Trim empties all-whitespace strings. -/
theorem jsTrim_of_allWs {l : List Char} (h : AllWs l) : jsTrim l = [] := by
  unfold jsTrim
  rw [List.dropWhile_eq_nil_iff.mpr h]
  rfl

/-- Step 1 preserves all-whitespace strings. -/
theorem allWs_removeInvisible {x : List Char} (h : AllWs x) : AllWs (removeInvisible x) :=
  fun c hc => h c (List.mem_filter.mp hc).1

/-- Step 2 preserves all-whitespace strings. -/
theorem allWs_smartQuote {x : List Char} (h : AllWs x) : AllWs (x.map smartQuoteChar) := by
  intro c hc
  obtain ⟨a, ha, rfl⟩ := List.mem_map.mp hc
  rw [smartQuoteChar_ws (h a ha)]
  exact h a ha

/-- Step 3 preserves all-whitespace strings. -/
theorem allWs_nbsp {x : List Char} (h : AllWs x) : AllWs (x.map nbspChar) := by
  intro c hc
  obtain ⟨a, ha, rfl⟩ := List.mem_map.mp hc
  exact nbspChar_ws (h a ha)

/-- Step 4 preserves all-whitespace strings. -/
theorem allWs_special {x : List Char} (h : AllWs x) : AllWs (x.map specialSpaceChar) := by
  intro c hc
  obtain ⟨a, ha, rfl⟩ := List.mem_map.mp hc
  exact specialSpaceChar_ws (h a ha)

/-- Step 5 preserves all-whitespace strings. -/
theorem allWs_dash {x : List Char} (h : AllWs x) : AllWs (x.map dashChar) := by
  intro c hc
  obtain ⟨a, ha, rfl⟩ := List.mem_map.mp hc
  rw [dashChar_ws (h a ha)]
  exact h a ha

/-- Step 6 preserves all-whitespace strings. -/
theorem allWs_ellipsis {x : List Char} (h : AllWs x) : AllWs (x.flatMap ellipsisChar) := by
  intro c hc
  obtain ⟨a, ha, hcf⟩ := List.mem_flatMap.mp hc
  rw [ellipsisChar_ws (h a ha)] at hcf
  simp at hcf
  subst hcf
  exact h _ ha

/-- Step 7 preserves all-whitespace strings. -/
theorem allWs_removeJoiners {x : List Char} (h : AllWs x) : AllWs (removeJoiners x) :=
  fun c hc => h c (List.mem_filter.mp hc).1

/-- Step 8 preserves all-whitespace strings. -/
theorem allWs_collapseWs {x : List Char} (h : AllWs x) : AllWs (collapseWs x) := by
  intro c hc
  rcases mem_collapseWsGo x false hc with hm | hs
  · exact h c hm
  · subst hs; decide

/-- Step 10, first replacement, preserves all-whitespace strings. -/
theorem allWs_dropCRLF {x : List Char} (h : AllWs x) : AllWs (dropCRLF x) := by
  intro c hc
  rcases mem_dropCRLF x hc with hm | hs
  · exact h c hm
  · subst hs; decide

/-- Step 10, second replacement, preserves all-whitespace strings. -/
theorem allWs_crToLF {x : List Char} (h : AllWs x) : AllWs (crToLF x) := by
  intro c hc
  obtain ⟨a, ha, rfl⟩ := List.mem_map.mp hc
  split
  · decide
  · exact h a ha

/-- Step 11 preserves all-whitespace strings. -/
theorem allWs_stripTrail {x : List Char} (h : AllWs x) : AllWs (stripTrailingSpaces x) := by
  intro c hc
  unfold stripTrailingSpaces at hc
  rw [List.mem_reverse] at hc
  have h2 := mem_stripTrailGo x.reverse true hc
  rw [List.mem_reverse] at h2
  exact h c h2

/-- Steps 12 and 15 preserve all-whitespace strings. -/
theorem allWs_collapseNl {x : List Char} (h : AllWs x) : AllWs (collapseNewlines x) := by
  intro c hc
  rcases mem_collapseNlGo x false hc with hm | hs
  · exact h c hm
  · subst hs; decide

/-- Step 13 preserves all-whitespace strings. -/
theorem allWs_stripLead {x : List Char} (h : AllWs x) : AllWs (stripLineLeadIndent x) :=
  fun c hc => h c (mem_stripLeadGo x true hc)

/-- Step 14 preserves all-whitespace strings. -/
theorem allWs_splitLong {x : List Char} (h : AllWs x) : AllWs (splitLongLines x) := by
  rw [splitLongLines_of_allWs h]
  exact h

/-- The full cleaning pipeline empties all-whitespace strings, for every
normalization step that maps all-whitespace strings to all-whitespace
strings (as Unicode NFKC does). -/
theorem cleanListWith_allWs (nfkc : List Char → List Char)
    (hn : ∀ x, AllWs x → AllWs (nfkc x)) (l : List Char) (h : AllWs l) :
    cleanListWith nfkc l = [] := by
  unfold cleanListWith
  exact jsTrim_of_allWs (allWs_collapseNl (allWs_splitLong (allWs_stripLead (allWs_collapseNl
    (allWs_stripTrail (allWs_crToLF (allWs_dropCRLF (hn _ (allWs_collapseWs (allWs_removeJoiners
      (allWs_ellipsis (allWs_dash (allWs_special (allWs_nbsp (allWs_smartQuote
        (allWs_removeInvisible h))))))))))))))))

/-- Claim C9: cleanText is total on its public interface and returns the
empty string for every degenerate input: a value that is not a string,
the empty string, or a string of whitespace characters only, all map to
the empty string (the Lean embedding is a total function, so no
exception is possible).  The theorem holds for every host normalization
step that maps all-whitespace strings to all-whitespace strings, a
property of Unicode NFKC. -/
theorem cleanText_degenerate (nfkc : List Char → List Char)
    (hn : ∀ x, AllWs x → AllWs (nfkc x)) (v : JSValue)
    (hv : v = JSValue.nonString ∨ ∃ s, v = JSValue.str s ∧ AllWs s.data) :
    cleanTextJS nfkc v = "" := by
  rcases hv with rfl | ⟨s, rfl, hs⟩
  · rfl
  · show cleanTextWith nfkc s = ""
    unfold cleanTextWith
    split
    · rfl
    · rw [cleanListWith_allWs nfkc hn s.data hs]

/-- Witness for claim C9: a non-string value, the empty string and a
concrete whitespace-only string all clean to the empty string. -/
theorem cleanText_degenerate_witness :
    cleanTextJS normalizeNFKC JSValue.nonString = "" ∧
    cleanTextJS normalizeNFKC (JSValue.str "") = "" ∧
    cleanTextJS normalizeNFKC (JSValue.str "  \t\n  ") = "" :=
  ⟨cleanText_degenerate normalizeNFKC (fun _ h => h) JSValue.nonString (Or.inl rfl),
   cleanText_degenerate normalizeNFKC (fun _ h => h) (JSValue.str "")
     (Or.inr ⟨"", rfl, by decide⟩),
   cleanText_degenerate normalizeNFKC (fun _ h => h) (JSValue.str "  \t\n  ")
     (Or.inr ⟨"  \t\n  ", rfl, by decide⟩)⟩

/-- Predicate: every character of the list is ASCII. -/
def AllAscii (l : List Char) : Prop := ∀ c ∈ l, c.toNat < 128

/-- Decidability of the all-ASCII predicate. -/
instance (l : List Char) : Decidable (AllAscii l) := List.decidableBAll _ l

/-- Predicate: no two adjacent characters are both non-newline whitespace
(the image property of step 8). -/
def NoDoubleWs (l : List Char) : Prop :=
  List.Chain' (fun a b => isInlineWs a = false ∨ isInlineWs b = false) l

/-- Predicate: the first character, when present, is not whitespace. -/
def HeadNotWs (l : List Char) : Prop := ∀ c, l.head? = some c → isWs c = false

/-- Predicate: the last character, when present, is not whitespace. -/
def LastNotWs (l : List Char) : Prop := ∀ c, l.getLast? = some c → isWs c = false

/-- Step 1 is the identity on ASCII strings. -/
theorem removeInvisible_ascii {l : List Char} (h : AllAscii l) : removeInvisible l = l := by
  apply List.filter_eq_self.mpr
  intro a ha
  have h2 := h a ha
  simp only [Bool.not_eq_true', decide_eq_false_iff_not]
  omega

/-- Step 2 fixes ASCII characters. -/
theorem smartQuoteChar_ascii {c : Char} (h : c.toNat < 128) : smartQuoteChar c = c := by
  unfold smartQuoteChar
  rw [if_neg (by omega), if_neg (by omega)]

/-- Step 3 fixes ASCII characters. -/
theorem nbspChar_ascii {c : Char} (h : c.toNat < 128) : nbspChar c = c := by
  unfold nbspChar
  rw [if_neg (by omega)]

/-- Step 4 fixes ASCII characters. -/
theorem specialSpaceChar_ascii {c : Char} (h : c.toNat < 128) : specialSpaceChar c = c := by
  unfold specialSpaceChar
  rw [if_neg (by omega)]

/-- Step 5 fixes ASCII characters. -/
theorem dashChar_ascii {c : Char} (h : c.toNat < 128) : dashChar c = c := by
  unfold dashChar
  rw [if_neg (by omega)]

/-- Step 6 fixes ASCII characters. -/
theorem ellipsisChar_ascii {c : Char} (h : c.toNat < 128) : ellipsisChar c = [c] := by
  unfold ellipsisChar
  rw [if_neg (by omega)]

/-- Step 7 is the identity on ASCII strings. -/
theorem removeJoiners_ascii {l : List Char} (h : AllAscii l) : removeJoiners l = l := by
  apply List.filter_eq_self.mpr
  intro a ha
  have h2 := h a ha
  simp only [Bool.not_eq_true', decide_eq_false_iff_not]
  omega

/-- The whitespace collapse never lengthens the string. -/
theorem collapseWsGo_length :
    ∀ (l : List Char) (skip : Bool), (collapseWsGo skip l).length ≤ l.length := by
  intro l
  induction l with
  | nil => intro skip; rw [collapseWsGo]
  | cons a rest ih =>
    intro skip
    have h1 := ih true
    have h2 := ih false
    rw [collapseWsGo]
    split
    · split
      · simp only [List.length_cons]
        omega
      · split
        · simp only [List.length_cons]
          omega
        · simp only [List.length_cons]
          omega
    · simp only [List.length_cons]
      omega

/-- After the single space of a run is emitted the next output character
is not inline whitespace. -/
theorem collapseWsGo_true_head :
    ∀ (l : List Char) (c : Char), (collapseWsGo true l).head? = some c →
      isInlineWs c = false := by
  intro l
  induction l with
  | nil => intro c h; rw [collapseWsGo] at h; simp at h
  | cons a rest ih =>
    intro c h
    rw [collapseWsGo] at h
    split at h
    · exact ih c h
    · rename_i hia
      simp at h
      subst h
      simpa using hia

/-- In normal mode a non-whitespace head is emitted first. -/
theorem collapseWsGo_false_head (a : Char) (rest : List Char)
    (ha : isInlineWs a = false) :
    (collapseWsGo false (a :: rest)).head? = some a := by
  rw [collapseWsGo]
  rw [if_neg (by simp [ha])]
  rfl

/-- The output of the whitespace collapse has no two adjacent inline
whitespace characters. -/
theorem collapseWs_chain :
    ∀ (l : List Char) (skip : Bool), NoDoubleWs (collapseWsGo skip l) := by
  intro l
  induction l with
  | nil => intro skip; rw [collapseWsGo]; simp [NoDoubleWs]
  | cons a rest ih =>
    intro skip
    rw [collapseWsGo]
    split
    · rename_i hia
      split
      · exact ih true
      · split
        · rw [NoDoubleWs, List.chain'_cons']
          exact ⟨fun y hy => Or.inr (collapseWsGo_true_head rest y hy), ih true⟩
        · rename_i hh
          rw [NoDoubleWs, List.chain'_cons']
          refine ⟨?_, ih false⟩
          intro y hy
          cases rest with
          | nil => rw [collapseWsGo] at hy; simp at hy
          | cons d rest2 =>
            have hd : isInlineWs d = false := by
              simpa [headIs] using hh
            rw [collapseWsGo_false_head d rest2 hd] at hy
            simp at hy
            subst hy
            exact Or.inr hd
    · rename_i hia
      rw [NoDoubleWs, List.chain'_cons']
      exact ⟨fun y hy => Or.inl (by simpa using hia), ih false⟩

/-- The whitespace collapse is the identity on strings without two
adjacent inline whitespace characters. -/
theorem collapseWsGo_false_id :
    ∀ l : List Char, NoDoubleWs l → collapseWsGo false l = l := by
  intro l
  induction l with
  | nil => intro h; rfl
  | cons a rest ih =>
    intro h
    have htail : NoDoubleWs rest := (List.chain'_cons'.mp h).2
    rw [collapseWsGo]
    split
    · rename_i hia
      have hh : headIs isInlineWs rest = false := by
        cases rest with
        | nil => rfl
        | cons d rest2 =>
          have := (List.chain'_cons'.mp h).1 d (by rfl)
          rcases this with hfa | hfd
          · rw [hia] at hfa; cases hfa
          · simpa [headIs] using hfd
      rw [if_neg (by simp), if_neg (by simp [hh]), ih htail]
    · rw [ih htail]

/-- CRLF removal is the identity on strings without carriage returns. -/
theorem dropCRLF_no_cr : ∀ l : List Char, '\r' ∉ l → dropCRLF l = l := by
  intro l
  induction l using dropCRLF.induct with
  | case1 => intro h; rfl
  | case2 a => intro h; rfl
  | case3 a b rest hab ih =>
    intro h
    rw [Bool.and_eq_true] at hab
    have : a = '\r' := by simpa using hab.1
    exact absurd (by simp [this]) h
  | case4 a b rest hab ih =>
    intro h
    rw [dropCRLF, if_neg hab]
    rw [ih (fun hm => h (by simp [hm]))]

/-- CR conversion is the identity on strings without carriage returns. -/
theorem crToLF_no_cr {l : List Char} (h : '\r' ∉ l) : crToLF l = l := by
  apply map_eq_self_of_mem
  intro a ha
  have hne : ¬(a = '\r') := fun hc => h (hc ▸ ha)
  rw [if_neg hne]

/-- The newline collapse is the identity on strings without newlines. -/
theorem collapseNlGo_no_nl : ∀ (l : List Char) (skip : Bool), '\n' ∉ l →
    collapseNlGo skip l = l := by
  intro l
  induction l with
  | nil => intro skip h; rfl
  | cons a rest ih =>
    intro skip h
    have ha : ¬(a = '\n') := fun hc => h (by simp [hc])
    rw [collapseNlGo, if_neg (by simpa using ha), ih false (fun hm => h (by simp [hm]))]

/-- The reversed trailing-space scanner with flag off is the identity on
strings without newlines. -/
theorem stripTrailGo_false_id : ∀ l : List Char, '\n' ∉ l → stripTrailGo false l = l := by
  intro l
  induction l with
  | nil => intro h; rfl
  | cons a rest ih =>
    intro h
    have ha : ¬(a = '\n') := fun hc => h (by simp [hc])
    rw [stripTrailGo, if_neg (by simp)]
    rw [decide_eq_false ha, ih (fun hm => h (by simp [hm]))]

/-- On newline-free strings the reversed trailing-space scanner drops
exactly the leading spaces of the reversed string. -/
theorem stripTrailGo_true_drop : ∀ l : List Char, '\n' ∉ l →
    stripTrailGo true l = l.dropWhile (fun d => d = ' ') := by
  intro l
  induction l with
  | nil => intro h; rfl
  | cons a rest ih =>
    intro h
    by_cases haSp : a = ' '
    · rw [stripTrailGo, if_pos (by simp [haSp]), ih (fun hm => h (by simp [hm]))]
      rw [List.dropWhile_cons, if_pos (by simp [haSp])]
    · have ha : ¬(a = '\n') := fun hc => h (by simp [hc])
      rw [stripTrailGo, if_neg (by simp [haSp]), decide_eq_false ha,
        stripTrailGo_false_id rest (fun hm => h (by simp [hm]))]
      rw [List.dropWhile_cons, if_neg (by simp [haSp])]

/-- On newline-free strings step 11 removes exactly the trailing
spaces. -/
theorem stripTrail_no_nl {l : List Char} (h : '\n' ∉ l) :
    stripTrailingSpaces l = ((l.reverse.dropWhile (fun d => d = ' ')).reverse) := by
  unfold stripTrailingSpaces
  rw [stripTrailGo_true_drop l.reverse (by simpa using h)]

/-- On newline-free strings the output of step 11 is a prefix of its
input. -/
theorem stripTrail_front {l : List Char} (h : '\n' ∉ l) :
    stripTrailingSpaces l <+: l := by
  rw [stripTrail_no_nl h]
  have hs : l.reverse.dropWhile (fun d => d = ' ') <:+ l.reverse :=
    List.dropWhile_suffix _
  have := List.reverse_prefix.mpr hs
  simpa using this

/-- A list whose head fails the predicate is unchanged by dropWhile. -/
theorem dropWhile_eq_self_of_head {p : Char → Bool} :
    ∀ l : List Char, (∀ c, l.head? = some c → p c = false) → l.dropWhile p = l := by
  intro l h
  cases l with
  | nil => rfl
  | cons a rest =>
    rw [List.dropWhile_cons, if_neg (by simp [h a rfl])]

/-- The head of a dropWhile output fails the predicate. -/
theorem head_dropWhile_not {p : Char → Bool} :
    ∀ (l : List Char) (c : Char), (l.dropWhile p).head? = some c → p c = false := by
  intro l
  induction l with
  | nil => intro c h; simp at h
  | cons a rest ih =>
    intro c h
    rw [List.dropWhile_cons] at h
    split at h
    · exact ih c h
    · rename_i hpa
      simp at h
      subst h
      simpa using hpa

/-- Step 11 is the identity on newline-free strings whose last character
is not whitespace. -/
theorem stripTrail_id {l : List Char} (hnl : '\n' ∉ l) (hl : LastNotWs l) :
    stripTrailingSpaces l = l := by
  rw [stripTrail_no_nl hnl]
  have hh : ∀ c, l.reverse.head? = some c → decide (c = ' ') = false := by
    intro c hc
    rw [List.head?_reverse] at hc
    have hw := hl c hc
    have hcs : ¬(c = ' ') := by
      intro hcsp
      subst hcsp
      exact absurd hw (by decide)
    exact decide_eq_false hcs
  rw [dropWhile_eq_self_of_head l.reverse hh, List.reverse_reverse]

/-- The leading-indent scanner with flag off is the identity on
newline-free strings. -/
theorem stripLeadGo_false_id : ∀ l : List Char, '\n' ∉ l → stripLeadGo false l = l := by
  intro l
  induction l with
  | nil => intro h; rfl
  | cons a rest ih =>
    intro h
    have ha : ¬(a = '\n') := fun hc => h (by simp [hc])
    rw [stripLeadGo, if_neg (by simp), decide_eq_false ha,
      ih (fun hm => h (by simp [hm]))]

/-- On newline-free strings step 13 either keeps the string or drops its
first character. -/
theorem stripLead_cases {l : List Char} (h : '\n' ∉ l) :
    stripLineLeadIndent l = l ∨ stripLineLeadIndent l = l.tail := by
  unfold stripLineLeadIndent
  cases l with
  | nil => exact Or.inl rfl
  | cons a rest =>
    have ha : ¬(a = '\n') := fun hc => h (by simp [hc])
    have hrest : '\n' ∉ rest := fun hm => h (by simp [hm])
    rw [stripLeadGo]
    split
    · rw [decide_eq_false ha, stripLeadGo_false_id rest hrest]
      exact Or.inr rfl
    · rw [decide_eq_false ha, stripLeadGo_false_id rest hrest]
      exact Or.inl rfl

/-- Step 13 is the identity on newline-free strings whose first
character is not whitespace. -/
theorem stripLead_id {l : List Char} (hh : HeadNotWs l) (hnl : '\n' ∉ l) :
    stripLineLeadIndent l = l := by
  unfold stripLineLeadIndent
  cases l with
  | nil => rfl
  | cons a rest =>
    have ha : ¬(a = '\n') := fun hc => hnl (by simp [hc])
    have haw : isWs a = false := hh a rfl
    rw [stripLeadGo, if_neg (by simp [haw]), decide_eq_false ha,
      stripLeadGo_false_id rest (fun hm => hnl (by simp [hm]))]

/-- The line splitter returns a single line on newline-free strings. -/
theorem splitLines_no_nl : ∀ l : List Char, '\n' ∉ l → splitLines l = [l] := by
  intro l
  induction l with
  | nil => intro h; rfl
  | cons a rest ih =>
    intro h
    have ha : ¬(a = '\n') := fun hc => h (by simp [hc])
    rw [splitLines, if_neg ha, ih (fun hm => h (by simp [hm]))]

/-- Step 14 is the identity on newline-free strings of at most 500
characters. -/
theorem splitLongLines_short {l : List Char} (hnl : '\n' ∉ l) (hlen : l.length ≤ 500) :
    splitLongLines l = l := by
  unfold splitLongLines
  rw [splitLines_no_nl l hnl]
  have : (if l.length > 500 then sentenceSplitLine l else l) = l := by
    rw [if_neg (by omega)]
  rw [List.map_cons, List.map_nil, this]
  rfl

/-- The head of the trim output is not whitespace. -/
theorem jsTrim_head (l : List Char) : HeadNotWs (jsTrim l) := by
  intro c hc
  unfold jsTrim at hc
  have hpre : ((l.dropWhile isWs).reverse.dropWhile isWs).reverse <+: l.dropWhile isWs := by
    have hs : (l.dropWhile isWs).reverse.dropWhile isWs <:+ (l.dropWhile isWs).reverse :=
      List.dropWhile_suffix _
    have := List.reverse_prefix.mpr hs
    simpa using this
  obtain ⟨t, ht⟩ := hpre
  cases hy : ((l.dropWhile isWs).reverse.dropWhile isWs).reverse with
  | nil => rw [hy] at hc; simp at hc
  | cons y ys =>
    rw [hy] at hc ht
    have hcy : y = c := by simpa using hc
    apply head_dropWhile_not l c
    rw [← ht]
    simp [hcy]

/-- The last character of the trim output is not whitespace. -/
theorem jsTrim_last (l : List Char) : LastNotWs (jsTrim l) := by
  intro c hc
  unfold jsTrim at hc
  rw [List.getLast?_reverse] at hc
  exact head_dropWhile_not _ c hc

/-- Trim is the identity when neither end is whitespace. -/
theorem jsTrim_id {l : List Char} (hh : HeadNotWs l) (hl : LastNotWs l) : jsTrim l = l := by
  unfold jsTrim
  rw [dropWhile_eq_self_of_head l hh]
  have hh2 : ∀ c, l.reverse.head? = some c → isWs c = false := by
    intro c hc
    rw [List.head?_reverse] at hc
    exact hl c hc
  rw [dropWhile_eq_self_of_head l.reverse hh2, List.reverse_reverse]

/-- The trim output is an infix of its input. -/
theorem jsTrim_within (l : List Char) : jsTrim l <:+: l := by
  unfold jsTrim
  have hpre : ((l.dropWhile isWs).reverse.dropWhile isWs).reverse <+: l.dropWhile isWs := by
    have hs : (l.dropWhile isWs).reverse.dropWhile isWs <:+ (l.dropWhile isWs).reverse :=
      List.dropWhile_suffix _
    have := List.reverse_prefix.mpr hs
    simpa using this
  exact hpre.isInfix.trans (List.dropWhile_suffix isWs).isInfix

/-- Steps 12 and 15 are the identity on newline-free strings. -/
theorem collapseNewlines_no_nl {x : List Char} (h : '\n' ∉ x) : collapseNewlines x = x :=
  collapseNlGo_no_nl x false h

/-- On ASCII strings without newlines or carriage returns of at most 500
characters the pipeline reduces to steps 8, 11, 13 and 16: the character
conversions, the newline normalizations and the long-line splitter are
all the identity there. -/
theorem cleanListWith_nice (nfkc : List Char → List Char)
    (hn : ∀ x, AllAscii x → nfkc x = x) (l : List Char)
    (ha : AllAscii l) (hnl : '\n' ∉ l) (hcr : '\r' ∉ l) (hlen : l.length ≤ 500) :
    cleanListWith nfkc l =
      jsTrim (stripLineLeadIndent (stripTrailingSpaces (collapseWs l))) := by
  have hcwA : AllAscii (collapseWs l) := by
    intro c hc
    rcases mem_collapseWsGo l false hc with hm | hs
    · exact ha c hm
    · subst hs; decide
  have hcwNl : '\n' ∉ collapseWs l := by
    intro hc
    rcases mem_collapseWsGo l false hc with hm | hs
    · exact hnl hm
    · exact absurd hs (by decide)
  have hcwCr : '\r' ∉ collapseWs l := by
    intro hc
    rcases mem_collapseWsGo l false hc with hm | hs
    · exact hcr hm
    · exact absurd hs (by decide)
  have hstNl : '\n' ∉ stripTrailingSpaces (collapseWs l) := by
    intro hc
    exact hcwNl ((stripTrail_front hcwNl).sublist.mem hc)
  have hslNl : '\n' ∉ stripLineLeadIndent (stripTrailingSpaces (collapseWs l)) :=
    fun hc => hstNl (mem_stripLeadGo _ true hc)
  have hstLen : (stripTrailingSpaces (collapseWs l)).length ≤ 500 :=
    le_trans (stripTrail_front hcwNl).sublist.length_le
      (le_trans (collapseWsGo_length l false) hlen)
  have hslLen : (stripLineLeadIndent (stripTrailingSpaces (collapseWs l))).length ≤ 500 := by
    rcases stripLead_cases hstNl with he | he
    · rw [he]; exact hstLen
    · rw [he]
      have := List.length_tail (stripTrailingSpaces (collapseWs l))
      omega
  unfold cleanListWith
  rw [removeInvisible_ascii ha,
    map_eq_self_of_mem (fun a hm => smartQuoteChar_ascii (ha a hm)),
    map_eq_self_of_mem (fun a hm => nbspChar_ascii (ha a hm)),
    map_eq_self_of_mem (fun a hm => specialSpaceChar_ascii (ha a hm)),
    map_eq_self_of_mem (fun a hm => dashChar_ascii (ha a hm)),
    flatMap_eq_self_of_mem (fun a hm => ellipsisChar_ascii (ha a hm)),
    removeJoiners_ascii ha,
    hn _ hcwA,
    dropCRLF_no_cr _ hcwCr,
    crToLF_no_cr hcwCr,
    collapseNewlines_no_nl hstNl,
    splitLongLines_short hslNl hslLen,
    collapseNewlines_no_nl hslNl]

/-- The pipeline output on a short single-line ASCII string satisfies
the conditions under which every step is the identity. -/
theorem cleanListWith_nice_props (nfkc : List Char → List Char)
    (hn : ∀ x, AllAscii x → nfkc x = x) (l : List Char)
    (ha : AllAscii l) (hnl : '\n' ∉ l) (hcr : '\r' ∉ l) (hlen : l.length ≤ 500) :
    AllAscii (cleanListWith nfkc l) ∧ '\n' ∉ cleanListWith nfkc l ∧
    '\r' ∉ cleanListWith nfkc l ∧ (cleanListWith nfkc l).length ≤ 500 ∧
    NoDoubleWs (cleanListWith nfkc l) ∧ HeadNotWs (cleanListWith nfkc l) ∧
    LastNotWs (cleanListWith nfkc l) := by
  rw [cleanListWith_nice nfkc hn l ha hnl hcr hlen]
  have hcwNl : '\n' ∉ collapseWs l := by
    intro hc
    rcases mem_collapseWsGo l false hc with hm | hs
    · exact hnl hm
    · exact absurd hs (by decide)
  have hstNl : '\n' ∉ stripTrailingSpaces (collapseWs l) := by
    intro hc
    exact hcwNl ((stripTrail_front hcwNl).sublist.mem hc)
  have hs2in : stripLineLeadIndent (stripTrailingSpaces (collapseWs l)) <:+:
      stripTrailingSpaces (collapseWs l) := by
    rcases stripLead_cases hstNl with he | he
    · rw [he]
    · rw [he]
      exact (List.tail_suffix _).isInfix
  have hin : jsTrim (stripLineLeadIndent (stripTrailingSpaces (collapseWs l))) <:+:
      collapseWs l :=
    (jsTrim_within _).trans (hs2in.trans (stripTrail_front hcwNl).isInfix)
  refine ⟨?_, ?_, ?_, ?_, ?_, jsTrim_head _, jsTrim_last _⟩
  · intro c hc
    rcases mem_collapseWsGo l false (hin.sublist.mem hc) with hm | hs
    · exact ha c hm
    · subst hs; decide
  · intro hc
    rcases mem_collapseWsGo l false (hin.sublist.mem hc) with hm | hs
    · exact hnl hm
    · exact absurd hs (by decide)
  · intro hc
    rcases mem_collapseWsGo l false (hin.sublist.mem hc) with hm | hs
    · exact hcr hm
    · exact absurd hs (by decide)
  · exact le_trans hin.sublist.length_le (le_trans (collapseWsGo_length l false) hlen)
  · exact List.Chain'.infix (collapseWs_chain l false) hin

/-- On strings already in cleaned form, the whole pipeline is the
identity. -/
theorem cleanListWith_fixed (nfkc : List Char → List Char)
    (hn : ∀ x, AllAscii x → nfkc x = x) (u : List Char)
    (ha : AllAscii u) (hnl : '\n' ∉ u) (hcr : '\r' ∉ u) (hlen : u.length ≤ 500)
    (hnd : NoDoubleWs u) (hh : HeadNotWs u) (hl : LastNotWs u) :
    cleanListWith nfkc u = u := by
  rw [cleanListWith_nice nfkc hn u ha hnl hcr hlen]
  rw [show collapseWs u = u from collapseWsGo_false_id u hnd]
  rw [stripTrail_id hnl hl, stripLead_id hh hnl, jsTrim_id hh hl]

/-- Unfolding of cleanTextWith on a nonempty string. -/
theorem cleanTextWith_ne (nfkc : List Char → List Char) (s : String) (h : ¬s = "") :
    cleanTextWith nfkc s = ⟨cleanListWith nfkc s.data⟩ := by
  unfold cleanTextWith
  rw [if_neg h]

/-- Counterexample to claim C8 as stated: cleanText is not idempotent.
The input holds the letter a, a blank line, then a space and the letter
b.  The first application removes only the leading space of the last
line (step 13), keeping the blank line; the second application then
matches step 13 at the newline of the now-empty middle line (a
whitespace character not followed by whitespace) and deletes it, merging
the paragraph break into a single line break. -/
theorem cleanText_not_idempotent :
    cleanText (cleanText "a\n\n b") ≠ cleanText "a\n\n b" := by decide

/-- Claim C8 (amended): cleanText is not idempotent in general (see the
counterexample, where a second application deletes the newline of a
blank line that precedes non-whitespace text); it is idempotent on ASCII
inputs without newlines or carriage returns of at most 500 characters,
and this holds for every host normalization step that is the identity on
ASCII strings, a property of Unicode NFKC. -/
theorem cleanText_idempotent_amended (nfkc : List Char → List Char)
    (hn : ∀ x, AllAscii x → nfkc x = x) (s : String)
    (ha : AllAscii s.data) (hnl : '\n' ∉ s.data) (hcr : '\r' ∉ s.data)
    (hlen : s.data.length ≤ 500) :
    cleanTextWith nfkc (cleanTextWith nfkc s) = cleanTextWith nfkc s := by
  by_cases hs : s = ""
  · subst hs; rfl
  · by_cases ht : cleanTextWith nfkc s = ""
    · rw [ht]
      rfl
    · obtain ⟨p1, p2, p3, p4, p5, p6, p7⟩ :=
        cleanListWith_nice_props nfkc hn s.data ha hnl hcr hlen
      have htd : (cleanTextWith nfkc s).data = cleanListWith nfkc s.data := by
        rw [cleanTextWith_ne nfkc s hs]
      have hfix : cleanListWith nfkc (cleanTextWith nfkc s).data =
          (cleanTextWith nfkc s).data := by
        rw [htd]
        exact cleanListWith_fixed nfkc hn _ p1 p2 p3 p4 p5 p6 p7
      rw [cleanTextWith_ne nfkc _ ht, hfix]

/-- Witness for the amended claim C8 at a concrete single-line ASCII
input with a double space. -/
theorem cleanText_idempotent_amended_witness :
    AllAscii ("hi  there.").data ∧ '\n' ∉ ("hi  there.").data ∧
    '\r' ∉ ("hi  there.").data ∧ ("hi  there.").data.length ≤ 500 ∧
    cleanText (cleanText "hi  there.") = cleanText "hi  there." :=
  ⟨by decide, by decide, by decide, by decide,
   cleanText_idempotent_amended normalizeNFKC (fun _ _ => rfl) "hi  there."
     (by decide) (by decide) (by decide) (by decide)⟩
